import Mathlib

/-!
Verification of the british-square solver (`bsquare.c`).

The full game state is a 56-bit bitboard held in a `uint64_t`: the bottom
25 bits are the first player's pieces, the next 25 bits the second
player's, and the next 6 bits the 1-indexed turn number.  We embed the
C code shallowly: `uint64_t` values become `Nat`, and every C operation
that can wrap modulo 2^64 carries an explicit `% 2^64`.
-/

namespace BSquare

/-- Empty state for boards and masks (`#define INIT (1ULL<<50)`). -/
def INIT : Nat := 1 <<< 50

/-- The current player, from the 1-indexed turn number:
`int who = (turn - 1) % 2;` where `turn` is a `uint64_t`, so the
subtraction wraps modulo 2^64 before the remainder is taken. -/
def who (turn : Nat) : Nat := ((turn + (2 ^ 64 - 1)) % 2 ^ 64) % 2

/-- Place a piece at the given index, returning the next board. -/
def place (b : Nat) (i : Nat) : Nat :=
  let turn := b >>> 50
  let state := b &&& 0x3ffffffffffff
  let bit := (1 <<< (who turn * 25 + i)) % 2 ^ 64
  ((turn + 1) <<< 50) % 2 ^ 64 ||| state ||| bit

/-- Pass the current player's turn without placing a piece, returning the
next board or mask. -/
def pass (b : Nat) : Nat :=
  let turn := b >>> 50
  let state := b &&& 0x3ffffffffffff
  ((turn + 1) <<< 50) % 2 ^ 64 ||| state

/-- The static per-cell adjacency patterns used by `mask`. -/
def blocks : List Nat := [
  0x0000023, 0x0000047, 0x000008e, 0x000011c, 0x0000218,
  0x0000461, 0x00008e2, 0x00011c4, 0x0002388, 0x0004310,
  0x0008c20, 0x0011c40, 0x0023880, 0x0047100, 0x0086200,
  0x0118400, 0x0238800, 0x0471000, 0x08e2000, 0x10c4000,
  0x0308000, 0x0710000, 0x0e20000, 0x1c40000, 0x1880000]

/-- Place a piece at the given index, returning the next mask
(`blocks[i]` is shifted into the opponent's plane, `!who` being `1 - who`
for `who` in 0..1). -/
def mask (m : Nat) (i : Nat) : Nat :=
  let turn := m >>> 50
  let state := m &&& 0x3ffffffffffff
  ((turn + 1) <<< 50) % 2 ^ 64 ||| state |||
    blocks.getD i 0 <<< ((1 - who turn) * 25) |||
    (1 <<< (who turn * 25 + i)) % 2 ^ 64

/-- The 0-indexed turn number of a board or mask (C returns an `int`,
which is -1 when the stored turn field is 0). -/
def turn (b : Nat) : Int := ((b >>> 50 : Nat) : Int) - 1

/-- The ascending list of occupied cell indices of player `p`'s plane,
as collected by the scanning loop at the top of `derive`. -/
def movesOf (b : Nat) (p : Nat) : List Nat :=
  (List.range 25).filter (fun i => b.testBit (p * 25 + i))

/-- One iteration of the replay loop in `derive`: at loop counter `i`,
player `i % 2` replays their `i / 2`-th recorded move, or passes when
their move list is exhausted. -/
def deriveStep (mv0 mv1 : List Nat) (m : Nat) (i : Nat) : Nat :=
  match (if i % 2 = 0 then mv0 else mv1).get? (i / 2) with
  | some c => mask m c
  | none => pass m

/-- Derive a mask from a board.  The C loop runs while
`turn(m) < turn(b)`; since each iteration raises `turn(m)` by exactly 1
starting from `turn(INIT) = 0`, it runs `(turn b).toNat` times. -/
def derive (b : Nat) : Nat :=
  (List.range (turn b).toNat).foldl (deriveStep (movesOf b 0) (movesOf b 1)) INIT

/-- Transpose a board or mask (flip along the diagonal).  The C left
shifts wrap modulo 2^64 before masking. -/
def transpose (b : Nat) : Nat :=
  ((b >>> 16) &&& 0x00000020000010) |||
  ((b >>> 12) &&& 0x00000410000208) |||
  ((b >>> 8) &&& 0x00008208004104) |||
  ((b >>> 4) &&& 0x00104104082082) |||
  (b &&& 0xfe082083041041) |||
  ((b <<< 4) % 2 ^ 64 &&& 0x01041040820820) |||
  ((b <<< 8) % 2 ^ 64 &&& 0x00820800410400) |||
  ((b <<< 12) % 2 ^ 64 &&& 0x00410000208000) |||
  ((b <<< 16) % 2 ^ 64 &&& 0x00200000100000)

/-- Flip a board or mask vertically. -/
def flipv (b : Nat) : Nat :=
  ((b >>> 20) &&& 0x0000003e00001f) |||
  ((b >>> 10) &&& 0x000007c00003e0) |||
  (b &&& 0xfc00f800007c00) |||
  ((b <<< 10) % 2 ^ 64 &&& 0x001f00000f8000) |||
  ((b <<< 20) % 2 ^ 64 &&& 0x03e00001f00000)

/-- Return the canonical board rotation/reflection: the running minimum
over the eight alternating transpose/flip iterates (`c < b ? c : b`). -/
def canonicalize (b : Nat) : Nat :=
  let c0 := b
  let b1 := transpose b
  let c1 := if c0 < b1 then c0 else b1
  let b2 := flipv b1
  let c2 := if c1 < b2 then c1 else b2
  let b3 := transpose b2
  let c3 := if c2 < b3 then c2 else b3
  let b4 := flipv b3
  let c4 := if c3 < b4 then c3 else b4
  let b5 := transpose b4
  let c5 := if c4 < b5 then c4 else b5
  let b6 := flipv b5
  let c6 := if c5 < b6 then c5 else b6
  let b7 := transpose b6
  if c6 < b7 then c6 else b7

/-- Return true if the given move index is valid. -/
def valid (m : Nat) (i : Nat) : Bool :=
  let turn := m >>> 50
  if turn = 1 then i != 12 else !(m.testBit (who turn * 25 + i))

/-- Return true if the current player has no legal moves. -/
def nomoves (b m : Nat) : Bool :=
  let w := who (b >>> 50)
  ((b >>> (w * 25) ||| m >>> (w * 25)) &&& 0x1ffffff) == 0x1ffffff

/-- Return true if the game has ended: no more legal moves. -/
def iscomplete (b m : Nat) : Bool :=
  (((b >>> 25 ||| m >>> 25) &&& 0x1ffffff) == 0x1ffffff) &&
  (((b ||| m) &&& 0x1ffffff) == 0x1ffffff)

/-- `POPCOUNT` of a 64-bit value. -/
def popcnt (x : Nat) : Nat := (List.range 64).countP (fun i => x.testBit i)

/-! ## Bit-level toolkit -/

theorem or_shr (x y n : Nat) : (x ||| y) >>> n = x >>> n ||| y >>> n := by
  apply Nat.eq_of_testBit_eq
  intro j
  simp [Nat.testBit_or, Nat.testBit_shiftRight]

theorem shr_eq_zero {x n : Nat} (h : x < 2 ^ n) : x >>> n = 0 := by
  rw [Nat.shiftRight_eq_div_pow]
  exact Nat.div_eq_of_lt h

theorem shl50_mod64 (a : Nat) : (a <<< 50) % 2 ^ 64 = (a % 2 ^ 14) <<< 50 := by
  rw [Nat.shiftLeft_eq, Nat.shiftLeft_eq]
  have h : (2 : Nat) ^ 64 = 2 ^ 14 * 2 ^ 50 := by norm_num
  rw [h, Nat.mul_mod_mul_right]

theorem shl_shr_self (a n : Nat) : (a <<< n) >>> n = a := by
  rw [Nat.shiftLeft_eq, Nat.shiftRight_eq_div_pow]
  exact Nat.mul_div_cancel a (Nat.pos_pow_of_pos n (by norm_num))

theorem who_eq (t : Nat) : who t = (t + 1) % 2 := by
  unfold who
  omega

theorem who_lt_two (t : Nat) : who t < 2 := by
  rw [who_eq]
  omega

theorem and_mask_testBit (x n j : Nat) :
    (x &&& (2 ^ n - 1)).testBit j = (decide (j < n) && x.testBit j) := by
  simp [Nat.testBit_and, Nat.testBit_two_pow_sub_one, Bool.and_comm]

theorem one_shl_testBit (p j : Nat) : (1 <<< p).testBit j = decide (p = j) := by
  have h : (1 : Nat) <<< p = 2 ^ p := by rw [Nat.shiftLeft_eq, one_mul]
  rw [h, Nat.testBit_two_pow]

theorem one_shl_lt {p n : Nat} (h : p < n) : 1 <<< p < 2 ^ n := by
  rw [Nat.shiftLeft_eq, one_mul]
  exact Nat.pow_lt_pow_right (by norm_num) h

theorem parts_ext {x y : Nat} (hlow : ∀ j, j < 50 → x.testBit j = y.testBit j)
    (hhigh : x >>> 50 = y >>> 50) : x = y := by
  apply Nat.eq_of_testBit_eq
  intro j
  rcases Nat.lt_or_ge j 50 with hj | hj
  · exact hlow j hj
  · have hx : x.testBit j = (x >>> 50).testBit (j - 50) := by
      rw [Nat.testBit_shiftRight]
      congr 1
      omega
    have hy : y.testBit j = (y >>> 50).testBit (j - 50) := by
      rw [Nat.testBit_shiftRight]
      congr 1
      omega
    rw [hx, hy, hhigh]

theorem c50_eq : (0x3ffffffffffff : Nat) = 2 ^ 50 - 1 := by norm_num

theorem c25_eq : (0x1ffffff : Nat) = 2 ^ 25 - 1 := by norm_num

theorem state_lt (b : Nat) : b &&& 0x3ffffffffffff < 2 ^ 50 := by
  have h := Nat.and_le_right (n := b) (m := 0x3ffffffffffff)
  omega

theorem blocks_getD_lt (i : Nat) : blocks.getD i 0 < 2 ^ 25 := by
  rcases Nat.lt_or_ge i 25 with h | h
  · have hall : ∀ k, ∀ _ : k < 25, blocks.getD k 0 < 2 ^ 25 := by decide
    exact hall i h
  · rw [List.getD_eq_default]
    · norm_num
    · simp only [blocks, List.length]
      omega

theorem blocks_shl_lt (m i : Nat) :
    blocks.getD i 0 <<< ((1 - who (m >>> 50)) * 25) < 2 ^ 50 := by
  rw [Nat.shiftLeft_eq]
  calc blocks.getD i 0 * 2 ^ ((1 - who (m >>> 50)) * 25)
      < 2 ^ 25 * 2 ^ ((1 - who (m >>> 50)) * 25) :=
        (Nat.mul_lt_mul_right (Nat.pos_pow_of_pos _ (by norm_num))).mpr (blocks_getD_lt i)
    _ = 2 ^ (25 + (1 - who (m >>> 50)) * 25) := by rw [pow_add]
    _ ≤ 2 ^ 50 := Nat.pow_le_pow_right (by norm_num) (by have := who_lt_two (m >>> 50); omega)

theorem who_bit_lt {t i : Nat} (hi : i < 25) : who t * 25 + i < 50 := by
  have := who_lt_two t
  omega

theorem one_shl_mod64_eq {p : Nat} (hp : p < 50) :
    (1 <<< p) % 2 ^ 64 = 1 <<< p :=
  Nat.mod_eq_of_lt (lt_trans (one_shl_lt hp) (by norm_num))

/-- The turn field of `pass`. -/
theorem turn_pass (b : Nat) : pass b >>> 50 = (b >>> 50 + 1) % 2 ^ 14 := by
  simp only [pass]
  rw [shl50_mod64, or_shr, shl_shr_self, shr_eq_zero (state_lt b), Nat.or_zero]

/-- The turn field of `place`. -/
theorem turn_place (b i : Nat) (hi : i < 25) :
    place b i >>> 50 = (b >>> 50 + 1) % 2 ^ 14 := by
  simp only [place]
  have hbitlt : (1 <<< (who (b >>> 50) * 25 + i)) % 2 ^ 64 < 2 ^ 50 := by
    rw [one_shl_mod64_eq (who_bit_lt hi)]
    exact one_shl_lt (who_bit_lt hi)
  rw [shl50_mod64, or_shr, or_shr, shl_shr_self, shr_eq_zero (state_lt b),
    shr_eq_zero hbitlt, Nat.or_zero, Nat.or_zero]

/-- The turn field of `mask`. -/
theorem turn_mask (m i : Nat) (hi : i < 25) :
    mask m i >>> 50 = (m >>> 50 + 1) % 2 ^ 14 := by
  simp only [mask]
  have hbitlt : (1 <<< (who (m >>> 50) * 25 + i)) % 2 ^ 64 < 2 ^ 50 := by
    rw [one_shl_mod64_eq (who_bit_lt hi)]
    exact one_shl_lt (who_bit_lt hi)
  rw [shl50_mod64, or_shr, or_shr, or_shr, shl_shr_self, shr_eq_zero (state_lt m),
    shr_eq_zero hbitlt, shr_eq_zero (blocks_shl_lt m i), Nat.or_zero, Nat.or_zero, Nat.or_zero]


/-- The mask-state bits contributed by a placement of player `p` at cell `c`. -/
def contrib (p c : Nat) : Nat :=
  blocks.getD c 0 <<< ((1 - p) * 25) ||| 1 <<< (p * 25 + c)

theorem testBit_c50 (j : Nat) : Nat.testBit 0x3ffffffffffff j = decide (j < 50) := by
  rw [c50_eq, Nat.testBit_two_pow_sub_one]

theorem testBit_c25 (j : Nat) : Nat.testBit 0x1ffffff j = decide (j < 25) := by
  rw [c25_eq, Nat.testBit_two_pow_sub_one]

theorem testBit_shl50_low {a j : Nat} (hj : j < 50) : (a <<< 50).testBit j = false := by
  rw [Nat.testBit_shiftLeft]
  have h : ¬ (j ≥ 50) := by omega
  simp [h]

theorem testBit_one_sub (p j : Nat) :
    (decide (p ≤ j) && Nat.testBit 1 (j - p)) = decide (p = j) := by
  have h1 : Nat.testBit 1 (j - p) = decide (0 = j - p) := by
    rw [show (1 : Nat) = 2 ^ 0 from rfl, Nat.testBit_two_pow]
  rw [h1, Bool.eq_iff_iff]
  simp only [Bool.and_eq_true, decide_eq_true_eq]
  omega

/-- Low bits of `pass` are unchanged. -/
theorem testBit_low_pass (b : Nat) {j : Nat} (hj : j < 50) :
    (pass b).testBit j = b.testBit j := by
  simp only [pass]
  rw [shl50_mod64]
  simp [Nat.testBit_or, Nat.testBit_and, testBit_shl50_low hj, testBit_c50, hj]

/-- Low bits of `place`: the existing state plus the mover's bit at `i`. -/
theorem testBit_low_place (b i : Nat) (hi : i < 25) {j : Nat} (hj : j < 50) :
    (place b i).testBit j = (b.testBit j || decide (who (b >>> 50) * 25 + i = j)) := by
  simp only [place]
  rw [shl50_mod64, one_shl_mod64_eq (who_bit_lt hi)]
  simp [Nat.testBit_or, Nat.testBit_and, testBit_shl50_low hj, testBit_c50, one_shl_testBit,
    testBit_one_sub, hj]

/-- Low bits of `mask`: the existing state plus the placement's contribution. -/
theorem testBit_low_mask (m i : Nat) (hi : i < 25) {j : Nat} (hj : j < 50) :
    (mask m i).testBit j = (m.testBit j || (contrib (who (m >>> 50)) i).testBit j) := by
  simp only [mask, contrib]
  rw [shl50_mod64, one_shl_mod64_eq (who_bit_lt hi)]
  simp [Nat.testBit_or, Nat.testBit_and, testBit_shl50_low hj, testBit_c50, one_shl_testBit,
    testBit_one_sub, hj, Bool.or_assoc]

/-- A 25-bit plane test: `x &&& 0x1ffffff == 0x1ffffff` says bits 0..24 are all set. -/
theorem and_mask25_full_iff {x : Nat} :
    ((x &&& 0x1ffffff) == 0x1ffffff) = true ↔ ∀ c, c < 25 → x.testBit c = true := by
  rw [beq_iff_eq]
  constructor
  · intro h c hc
    have hbit := congrArg (fun z => z.testBit c) h
    simp only [Nat.testBit_and, testBit_c25] at hbit
    simpa [hc] using hbit
  · intro h
    apply Nat.eq_of_testBit_eq
    intro j
    rcases Nat.lt_or_ge j 25 with hj | hj
    · simp [Nat.testBit_and, testBit_c25, hj, h j hj]
    · have h25 : ¬ (j < 25) := by omega
      simp [Nat.testBit_and, testBit_c25, h25]

/-- Characterization of `nomoves`. -/
theorem nomoves_iff {b m : Nat} :
    nomoves b m = true ↔
      ∀ c, c < 25 →
        (b.testBit (who (b >>> 50) * 25 + c) || m.testBit (who (b >>> 50) * 25 + c)) = true := by
  simp only [nomoves]
  rw [and_mask25_full_iff]
  constructor
  · intro h c hc
    simpa [Nat.testBit_or, Nat.testBit_shiftRight] using h c hc
  · intro h c hc
    simpa [Nat.testBit_or, Nat.testBit_shiftRight] using h c hc

/-- Characterization of `iscomplete`. -/
theorem iscomplete_iff {b m : Nat} :
    iscomplete b m = true ↔
      (∀ c, c < 25 → (b.testBit (25 + c) || m.testBit (25 + c)) = true) ∧
      (∀ c, c < 25 → (b.testBit c || m.testBit c) = true) := by
  simp only [iscomplete, Bool.and_eq_true]
  rw [and_mask25_full_iff, and_mask25_full_iff]
  constructor
  · refine fun h => ⟨fun c hc => ?_, fun c hc => ?_⟩
    · simpa [Nat.testBit_or, Nat.testBit_shiftRight] using h.1 c hc
    · simpa [Nat.testBit_or] using h.2 c hc
  · refine fun h => ⟨fun c hc => ?_, fun c hc => ?_⟩
    · simpa [Nat.testBit_or, Nat.testBit_shiftRight] using h.1 c hc
    · simpa [Nat.testBit_or] using h.2 c hc

/-- Passing always flips the mover, even across the turn-field wrap. -/
theorem who_flip (t : Nat) : who ((t + 1) % 2 ^ 14) ≠ who t := by
  rw [who_eq, who_eq]
  omega

/-- After a pass from an incomplete position whose mover had no moves,
the new mover does have moves (otherwise both planes were full). -/
theorem nomoves_pass_false {b m : Nat} (hn : nomoves b m = true)
    (hc : iscomplete b m = false) : nomoves (pass b) (pass m) = false := by
  by_contra h
  rw [Bool.not_eq_false] at h
  rw [nomoves_iff] at hn h
  rw [turn_pass] at h
  have hflip := who_flip (b >>> 50)
  have hw := who_lt_two (b >>> 50)
  have hw' := who_lt_two ((b >>> 50 + 1) % 2 ^ 14)
  have hcomplete : iscomplete b m = true := by
    rw [iscomplete_iff]
    rcases Nat.lt_or_ge (who (b >>> 50)) 1 with h0 | h0
    · have hwz : who (b >>> 50) = 0 := by omega
      have hwo : who ((b >>> 50 + 1) % 2 ^ 14) = 1 := by omega
      constructor
      · intro c hc25
        have hcc := h c hc25
        rw [hwo, testBit_low_pass b (by omega : 1 * 25 + c < 50),
          testBit_low_pass m (by omega : 1 * 25 + c < 50)] at hcc
        simpa using hcc
      · intro c hc25
        have hcc := hn c hc25
        rw [hwz] at hcc
        simpa using hcc
    · have hwz : who (b >>> 50) = 1 := by omega
      have hwo : who ((b >>> 50 + 1) % 2 ^ 14) = 0 := by omega
      constructor
      · intro c hc25
        have hcc := hn c hc25
        rw [hwz] at hcc
        simpa using hcc
      · intro c hc25
        have hcc := h c hc25
        rw [hwo, testBit_low_pass b (by omega : 0 * 25 + c < 50),
          testBit_low_pass m (by omega : 0 * 25 + c < 50)] at hcc
        simpa using hcc
  rw [hcomplete] at hc
  exact Bool.noConfusion hc


/-! ## Termination measure for the recursive evaluator -/

/-- The state (occupancy/forbidden) bits of `pass` are unchanged. -/
theorem state_pass (m : Nat) :
    pass m &&& 0x3ffffffffffff = m &&& 0x3ffffffffffff := by
  apply Nat.eq_of_testBit_eq
  intro j
  rcases Nat.lt_or_ge j 50 with hj | hj
  · simp [Nat.testBit_and, testBit_c50, hj, testBit_low_pass m hj]
  · have h : ¬ (j < 50) := by omega
    simp [Nat.testBit_and, testBit_c50, h]

/-- The state bits of `mask` are the old ones plus the contribution. -/
theorem state_mask (m i : Nat) (hi : i < 25) :
    mask m i &&& 0x3ffffffffffff =
      (m &&& 0x3ffffffffffff) ||| (contrib (who (m >>> 50)) i &&& 0x3ffffffffffff) := by
  apply Nat.eq_of_testBit_eq
  intro j
  rcases Nat.lt_or_ge j 50 with hj | hj
  · simp [Nat.testBit_and, Nat.testBit_or, testBit_c50, hj, testBit_low_mask m i hi hj,
      Bool.or_and_distrib_right]
  · have h : ¬ (j < 50) := by omega
    simp [Nat.testBit_and, Nat.testBit_or, testBit_c50, h]

/-- `contrib p c` always contains the mover's own bit at `c`. -/
theorem contrib_own_bit (p c : Nat) : (contrib p c).testBit (p * 25 + c) = true := by
  simp [contrib, Nat.testBit_or, one_shl_testBit]

/-- State bits never decrease under `mask`. -/
theorem state_mask_mono (m i : Nat) (hi : i < 25) :
    m &&& 0x3ffffffffffff ≤ mask m i &&& 0x3ffffffffffff := by
  rw [state_mask m i hi]
  exact Nat.le_of_testBit ( by
    intro j hj
    simp [Nat.testBit_or, hj])

/-- When the mover's own mask bit at `i` is clear, `mask` strictly grows. -/
theorem state_mask_strict (m i : Nat) (hi : i < 25)
    (hclear : m.testBit (who (m >>> 50) * 25 + i) = false) :
    m &&& 0x3ffffffffffff < mask m i &&& 0x3ffffffffffff := by
  apply Nat.lt_of_le_of_ne (state_mask_mono m i hi)
  intro heq
  have hbit := congrArg (fun z => z.testBit (who (m >>> 50) * 25 + i)) heq
  have hin : who (m >>> 50) * 25 + i < 50 := who_bit_lt hi
  simp only [state_mask m i hi, Nat.testBit_and, Nat.testBit_or, testBit_c50] at hbit
  rw [contrib_own_bit, hclear] at hbit
  simp [hin] at hbit

/-- `valid` at a turn field other than 1 means the mover's bit is clear. -/
theorem valid_bit_clear {m i : Nat} (hv : valid m i = true) (ht : m >>> 50 ≠ 1) :
    m.testBit (who (m >>> 50) * 25 + i) = false := by
  simp only [valid, if_neg ht] at hv
  simpa using hv

/-- Auxiliary component of the termination measure: how many more
state-preserving steps the evaluator can take from here (at most 3:
pass at wrapped turn 0, then the special opening turn 1, then one pass). -/
def kcomp (b m : Nat) : Nat :=
  if (m >>> 50) % 2 ^ 14 = 0 ∧ nomoves b m = true then 3
  else if (m >>> 50) % 2 ^ 14 = 1 then 2
  else if nomoves b m = true then 1 else 0

/-- Termination measure for `eval`: every recursive call either sets a
new mask-state bit (weight 4) or reduces `kcomp`. -/
def evalMeasure (b m : Nat) : Nat :=
  4 * (2 ^ 50 - (m &&& 0x3ffffffffffff)) + kcomp b m

theorem kcomp_le_three (b m : Nat) : kcomp b m ≤ 3 := by
  unfold kcomp
  split_ifs <;> omega

/-- Meausre decrease for the pass branch of `eval`. -/
theorem measure_pass_lt {b m : Nat} (hn : nomoves b m = true)
    (hc : iscomplete b m = false) :
    evalMeasure (pass b) (pass m) < evalMeasure b m := by
  have hstate := state_pass m
  have hnom := nomoves_pass_false hn hc
  have hturn := turn_pass m
  unfold evalMeasure
  rw [hstate]
  have hk : kcomp (pass b) (pass m) < kcomp b m := by
    unfold kcomp
    rw [hn, hnom, hturn]
    have hmod : ((m >>> 50 + 1) % 2 ^ 14) % 2 ^ 14 = (m >>> 50 + 1) % 2 ^ 14 :=
      Nat.mod_mod_of_dvd _ dvd_rfl
    rw [hmod]
    simp only [Bool.false_eq_true, and_false, if_false, eq_self_iff_true, and_true, if_true]
    split_ifs <;> omega
  omega


theorem kcomp_turn_two {b m : Nat} (h : (m >>> 50) % 2 ^ 14 = 2) : kcomp b m ≤ 1 := by
  simp only [kcomp, h]
  simp only [show ((2 : Nat) = 0) = False by simp, show ((2 : Nat) = 1) = False by simp,
    false_and, if_false]
  split <;> omega

theorem kcomp_turn_one {b m : Nat} (h : (m >>> 50) % 2 ^ 14 = 1) : kcomp b m = 2 := by
  simp only [kcomp, h]
  simp only [show ((1 : Nat) = 0) = False by simp, false_and, if_false, if_true]

/-- Measure decrease for the place branch of `eval`. -/
theorem measure_place_lt {b m i : Nat} (hi : i < 25) (hv : valid m i = true) :
    evalMeasure (place b i) (mask m i) < evalMeasure b m := by
  rcases eq_or_ne (m >>> 50) 1 with ht | ht
  · -- opening turn: the state may not grow, but the turn leaves 1
    have hmono := state_mask_mono m i hi
    have hkchild : kcomp (place b i) (mask m i) ≤ 1 := by
      apply kcomp_turn_two
      rw [turn_mask m i hi, ht]
      norm_num
    have hkparent : kcomp b m = 2 := kcomp_turn_one (by rw [ht]; norm_num)
    unfold evalMeasure
    rw [hkparent]
    have hs := state_lt (mask m i)
    omega
  · -- ordinary turn: a fresh state bit is set
    have hstrict := state_mask_strict m i hi (valid_bit_clear hv ht)
    have hk3 := kcomp_le_three (place b i) (mask m i)
    have hs := state_lt (mask m i)
    have hs2 := state_lt m
    unfold evalMeasure
    omega


/-! ## Evaluation strategies (the two `slot_t` variants) -/

/-- The pluggable scoring strategy: the C translation unit defines one of
two variants of `slot_t` with these operations, selected by `#ifdef`. -/
structure Strategy (σ : Type) where
  init : Nat → σ
  getboard : σ → Nat
  setboard : σ → Nat → σ
  score : Nat → σ
  combine : σ → σ → σ
  compare : σ → σ → Int

namespace Minimax

/-- Minimax slot: a biased score in the 6 bits above the 56-bit board. -/
def init (b : Nat) : Nat :=
  (if turn b % 2 ≠ 0 then (25 : Int) + 25 else -25 + 25).toNat <<< 56 ||| b

def getboard (s : Nat) : Nat := s &&& 0xffffffffffffff

def setboard (s : Nat) (b : Nat) : Nat := (s &&& 0x3f00000000000000) ||| b

def getscore (s : Nat) : Int := ((s >>> 56 : Nat) : Int) - 25

def score (b : Nat) : Nat :=
  let p0 := popcnt (b &&& 0x1ffffff)
  let p1 := popcnt (b >>> 25 &&& 0x1ffffff)
  ((p0 : Int) - p1 + 25).toNat <<< 56 ||| b

def combine (s0 s1 : Nat) : Nat :=
  let v0 := getscore s0
  let v1 := getscore s1
  if turn (getboard s0) % 2 ≠ 0 then
    if v0 < v1 then s0 else s1
  else
    if v0 > v1 then s0 else s1

def compare (s0 s1 : Nat) : Int :=
  let v0 := getscore s0
  let v1 := getscore s1
  if turn (getboard s0) % 2 ≠ 0 then v0 - v1 else v1 - v0

def strategy : Strategy Nat :=
  ⟨init, getboard, setboard, score, combine, compare⟩

end Minimax

namespace Tally

/-- Tally slot: total wins / losses / ties rooted at the given node. -/
structure Slot where
  board : Nat
  p1_wins : Int
  p2_wins : Int
  ties : Int
deriving DecidableEq, Repr

def init (b : Nat) : Slot := ⟨b, 0, 0, 0⟩

def getboard (s : Slot) : Nat := s.board

def setboard (s : Slot) (b : Nat) : Slot := { s with board := b }

def score (b : Nat) : Slot :=
  let p0 := popcnt (b &&& 0x1ffffff)
  let p1 := popcnt (b >>> 25 &&& 0x1ffffff)
  ⟨b, if p0 > p1 then 1 else 0, if p1 > p0 then 1 else 0, if p1 = p0 then 1 else 0⟩

def combine (s0 s1 : Slot) : Slot :=
  { s0 with
    p1_wins := s0.p1_wins + s1.p1_wins
    p2_wins := s0.p2_wins + s1.p2_wins
    ties := s0.ties + s1.ties }

def compare (s0 s1 : Slot) : Int := 0

def strategy : Strategy Slot :=
  ⟨init, getboard, setboard, score, combine, compare⟩

end Tally

/-! ## The recursive evaluator

The C `eval` memoizes each canonical position in a global transposition
table; since the search is deterministic, the cached slot always equals
the slot the recursion would recompute, so the shallow embedding is the
pure recursion without the table. -/

/-- Tally all outcomes rooted at the given board with mask.  The board
embedded in the returned slot is the canonical board. -/
def eval {σ : Type} (S : Strategy σ) (b m : Nat) : σ :=
  let b0 := canonicalize b
  if hc : iscomplete b m then S.score b0
  else if hn : nomoves b m then S.setboard (eval S (pass b) (pass m)) b0
  else
    (List.range 25).attach.foldl
      (fun s i =>
        if hv : valid m i.1 then
          S.combine s (S.setboard (eval S (place b i.1) (mask m i.1)) b0)
        else s)
      (S.init b0)
termination_by evalMeasure b m
decreasing_by
  · exact measure_pass_lt hn (by simpa using hc)
  · exact measure_place_lt (List.mem_range.mp i.2) hv


/-- Fold over `attach` with a function that ignores the membership proof. -/
theorem foldl_attach {α β : Type} (l : List α) (f : β → α → β) (a : β) :
    l.attach.foldl (fun s i => f s i.1) a = l.foldl f a := by
  have h1 : l.attach.foldl (fun s i => f s i.1) a =
      (l.attach.map (fun i => i.1)).foldl f a := by
    rw [List.foldl_map]
  rw [h1, List.attach_map_val l (fun x => x)]
  simp

theorem eval_complete {σ : Type} (S : Strategy σ) {b m : Nat}
    (h : iscomplete b m = true) : eval S b m = S.score (canonicalize b) := by
  rw [eval]
  simp [h]

theorem eval_nomoves {σ : Type} (S : Strategy σ) {b m : Nat}
    (h1 : iscomplete b m = false) (h2 : nomoves b m = true) :
    eval S b m = S.setboard (eval S (pass b) (pass m)) (canonicalize b) := by
  rw [eval]
  simp [h1, h2]

theorem eval_fold {σ : Type} (S : Strategy σ) {b m : Nat}
    (h1 : iscomplete b m = false) (h2 : nomoves b m = false) :
    eval S b m =
      (List.range 25).foldl
        (fun s i =>
          if valid m i then
            S.combine s (S.setboard (eval S (place b i) (mask m i)) (canonicalize b))
          else s)
        (S.init (canonicalize b)) := by
  rw [eval]
  simp only [h1, h2, Bool.false_eq_true, if_false, dite_eq_ite]
  exact foldl_attach (List.range 25)
    (fun s i =>
      if valid m i then
        S.combine s (S.setboard (eval S (place b i) (mask m i)) (canonicalize b))
      else s)
    (S.init (canonicalize b))

/-! ## Fuel-indexed evaluator, used to state termination -/

/-- One step of the option-valued fold over candidate cells. -/
def optStep {σ : Type} (S : Strategy σ) (m b0 : Nat) (child : Nat → Option σ)
    (acc : Option σ) (i : Nat) : Option σ :=
  match acc with
  | none => none
  | some s =>
    if valid m i then
      match child i with
      | none => none
      | some t => some (S.combine s (S.setboard t b0))
    else some s

/-- `eval` with explicit fuel; `none` means the fuel ran out. -/
def evalF {σ : Type} (S : Strategy σ) : Nat → Nat → Nat → Option σ
  | 0, _, _ => none
  | fuel + 1, b, m =>
    let b0 := canonicalize b
    if iscomplete b m then some (S.score b0)
    else if nomoves b m then
      (evalF S fuel (pass b) (pass m)).map (fun s => S.setboard s b0)
    else
      (List.range 25).foldl
        (optStep S m b0 (fun i => evalF S fuel (place b i) (mask m i)))
        (some (S.init b0))

theorem optStep_fold_none {σ : Type} (S : Strategy σ) (m b0 : Nat)
    (child : Nat → Option σ) (l : List Nat) :
    l.foldl (optStep S m b0 child) none = none := by
  induction l with
  | nil => rfl
  | cons i l ih => simpa [optStep] using ih

theorem optStep_fold_eval {σ : Type} (S : Strategy σ) (m b0 : Nat)
    (child : Nat → Option σ) (g : Nat → σ)
    (hch : ∀ i v, child i = some v → g i = v) :
    ∀ (l : List Nat) (s v : σ),
      l.foldl (optStep S m b0 child) (some s) = some v →
      l.foldl (fun s i => if valid m i then S.combine s (S.setboard (g i) b0) else s) s = v := by
  intro l
  induction l with
  | nil =>
    intro s v h
    simp only [List.foldl_nil] at h ⊢
    exact Option.some.inj h
  | cons i l ih =>
    intro s v h
    rw [List.foldl_cons] at h
    rw [List.foldl_cons]
    simp only [optStep] at h
    cases hval : valid m i with
    | false =>
      rw [hval] at h
      simp only [Bool.false_eq_true, if_false] at h
      simp only [hval, Bool.false_eq_true, if_false]
      exact ih s v h
    | true =>
      rw [hval] at h
      simp only [eq_self_iff_true, if_true] at h
      simp only [hval, eq_self_iff_true, if_true]
      cases hc : child i with
      | none =>
        rw [hc] at h
        rw [optStep_fold_none] at h
        exact absurd h (by simp)
      | some t =>
        rw [hc] at h
        rw [hch i t hc]
        exact ih _ v h

/-- A successful fuel-indexed evaluation agrees with `eval`. -/
theorem of_evalF {σ : Type} (S : Strategy σ) :
    ∀ (fuel b m : Nat) (v : σ), evalF S fuel b m = some v → eval S b m = v := by
  intro fuel
  induction fuel with
  | zero =>
    intro b m v h
    exact absurd h (by simp [evalF])
  | succ fuel ih =>
    intro b m v h
    simp only [evalF] at h
    cases hcomp : iscomplete b m with
    | true =>
      rw [hcomp] at h
      simp only [eq_self_iff_true, if_true] at h
      rw [eval_complete S hcomp]
      exact Option.some.inj h
    | false =>
      rw [hcomp] at h
      simp only [Bool.false_eq_true, if_false] at h
      cases hnom : nomoves b m with
      | true =>
        rw [hnom] at h
        simp only [eq_self_iff_true, if_true] at h
        cases hrec : evalF S fuel (pass b) (pass m) with
        | none =>
          rw [hrec] at h
          exact absurd h (by simp)
        | some w =>
          rw [hrec] at h
          simp only [Option.map_some'] at h
          rw [eval_nomoves S hcomp hnom, ih (pass b) (pass m) w hrec]
          exact Option.some.inj h
      | false =>
        rw [hnom] at h
        simp only [Bool.false_eq_true, if_false] at h
        rw [eval_fold S hcomp hnom]
        exact optStep_fold_eval S m (canonicalize b) _ _
          (fun i w hw => ih (place b i) (mask m i) w hw) (List.range 25) _ v h


theorem foldl_option_congr {α β : Type} (l : List α) (fo : Option β → α → Option β)
    (f : β → α → β) (h : ∀ s i, i ∈ l → fo (some s) i = some (f s i)) :
    ∀ s, l.foldl fo (some s) = some (l.foldl f s) := by
  induction l with
  | nil => intro s; rfl
  | cons i l ih =>
    intro s
    rw [List.foldl_cons, List.foldl_cons, h s i (by simp)]
    exact ih (fun s j hj => h s j (by simp [hj])) (f s i)

/-- With fuel exceeding the termination measure, the fuel-indexed
evaluator succeeds and agrees with `eval`. -/
theorem evalF_sufficient {σ : Type} (S : Strategy σ) :
    ∀ (fuel b m : Nat), evalMeasure b m < fuel →
      evalF S fuel b m = some (eval S b m) := by
  intro fuel
  induction fuel with
  | zero =>
    intro b m h
    exact absurd h (by omega)
  | succ fuel ih =>
    intro b m h
    simp only [evalF]
    cases hcomp : iscomplete b m with
    | true =>
      rw [eval_complete S hcomp]
      simp
    | false =>
      cases hnom : nomoves b m with
      | true =>
        have hlt := measure_pass_lt hnom hcomp
        rw [ih (pass b) (pass m) (by omega)]
        rw [eval_nomoves S hcomp hnom]
        simp
      | false =>
        simp only [Bool.false_eq_true, if_false]
        rw [eval_fold S hcomp hnom]
        apply foldl_option_congr
        intro s i hi
        have hi25 : i < 25 := List.mem_range.mp hi
        simp only [optStep]
        cases hval : valid m i with
        | false => simp [hval]
        | true =>
          have hlt := measure_place_lt (b := b) hi25 hval
          rw [ih (place b i) (mask m i) (by omega)]
          simp [hval]

/-- Candidate move collection (`suggest` in the C code): fold over all
cells, keeping the best slot under `compare` and the list of cells tied
for best. -/
def suggest {σ : Type} (S : Strategy σ) (b m : Nat) : List Nat × σ :=
  (List.range 25).foldl
    (fun acc i =>
      if valid m i then
        let s := S.setboard (eval S (place b i) (mask m i)) b
        let c := S.compare acc.2 s
        if 0 < c then ([i], s)
        else if c = 0 then (acc.1 ++ [i], acc.2)
        else acc
      else acc)
    ([], S.init b)

/-- `suggest` with explicit fuel for its inner evaluations. -/
def suggestF {σ : Type} (S : Strategy σ) (fuel b m : Nat) : Option (List Nat × σ) :=
  (List.range 25).foldl
    (fun acc i =>
      match acc with
      | none => none
      | some a =>
        if valid m i then
          match evalF S fuel (place b i) (mask m i) with
          | none => none
          | some t =>
            let s := S.setboard t b
            let c := S.compare a.2 s
            if 0 < c then some ([i], s)
            else if c = 0 then some (a.1 ++ [i], a.2)
            else some a
        else some a)
    (some ([], S.init b))

/-- With fuel exceeding the termination measure, the fuel-indexed
suggester succeeds and agrees with `suggest`. -/
theorem suggestF_sufficient {σ : Type} (S : Strategy σ) (fuel b m : Nat)
    (h : evalMeasure b m < fuel) : suggestF S fuel b m = some (suggest S b m) := by
  unfold suggestF suggest
  apply foldl_option_congr
  intro a i hi
  have hi25 : i < 25 := List.mem_range.mp hi
  cases hval : valid m i with
  | false => simp [hval]
  | true =>
    have hlt := measure_place_lt (b := b) hi25 hval
    rw [evalF_sufficient S fuel (place b i) (mask m i) (by omega)]
    simp only [hval, eq_self_iff_true, if_true]
    split_ifs <;> rfl


/-! ## Legal play -/

/-- Positions with companion masks reachable by legal play from
`(INIT, INIT)`: placements on cells satisfying `valid`, passes only when
the mover has no move and the game is not complete. -/
inductive Reach : Nat → Nat → Prop where
  | init : Reach INIT INIT
  | move {b m : Nat} (i : Nat) (hr : Reach b m) (hi : i < 25) (hv : valid m i = true) :
      Reach (place b i) (mask m i)
  | skip {b m : Nat} (hr : Reach b m) (hn : nomoves b m = true)
      (hc : iscomplete b m = false) : Reach (pass b) (pass m)

/-- The play condition claimed for `derive` alone: passes are allowed
whenever the mover has no move, even after the game has completed. -/
inductive ReachP : Nat → Nat → Prop where
  | init : ReachP INIT INIT
  | move {b m : Nat} (i : Nat) (hr : ReachP b m) (hi : i < 25) (hv : valid m i = true) :
      ReachP (place b i) (mask m i)
  | skip {b m : Nat} (hr : ReachP b m) (hn : nomoves b m = true) :
      ReachP (pass b) (pass m)

/-- Lockstep application of `(place, mask)` on cells satisfying `valid`
and of `(pass, pass)` with no condition on passes. -/
inductive ReachU : Nat → Nat → Prop where
  | init : ReachU INIT INIT
  | move {b m : Nat} (i : Nat) (hr : ReachU b m) (hi : i < 25) (hv : valid m i = true) :
      ReachU (place b i) (mask m i)
  | skip {b m : Nat} (hr : ReachU b m) : ReachU (pass b) (pass m)

/-- Number of occupied cells of a board. -/
def pieces (b : Nat) : Nat :=
  (List.range 25).countP (fun c => b.testBit c || b.testBit (25 + c))

/-- Big or of a list. -/
def listOr (l : List Nat) : Nat := l.foldr (fun x y => x ||| y) 0

/-- The state bits a board's occupied cells force into its mask. -/
def orPlanes (b : Nat) : Nat :=
  listOr ((List.range 25).map (fun c =>
    (if b.testBit c then contrib 0 c else 0) |||
    (if b.testBit (25 + c) then contrib 1 c else 0)))

/-- The mask determined by a board: its own turn field over the forced
state bits. -/
def maskOf (b : Nat) : Nat := (b >>> 50) <<< 50 ||| orPlanes b

theorem listOr_testBit (l : List Nat) (j : Nat) :
    (listOr l).testBit j = l.any (fun y => y.testBit j) := by
  induction l with
  | nil => simp [listOr]
  | cons x l ih =>
    rw [show listOr (x :: l) = x ||| listOr l from rfl]
    simp [Nat.testBit_or, ih]

theorem contrib_lt (p c : Nat) (hp : p < 2) (hc : c < 25) : contrib p c < 2 ^ 50 := by
  unfold contrib
  apply Nat.or_lt_two_pow
  · rw [Nat.shiftLeft_eq]
    calc blocks.getD c 0 * 2 ^ ((1 - p) * 25)
        < 2 ^ 25 * 2 ^ ((1 - p) * 25) :=
          (Nat.mul_lt_mul_right (Nat.pos_pow_of_pos _ (by norm_num))).mpr (blocks_getD_lt c)
      _ = 2 ^ (25 + (1 - p) * 25) := by rw [pow_add]
      _ ≤ 2 ^ 50 := Nat.pow_le_pow_right (by norm_num) (by omega)
  · exact one_shl_lt (by omega)

theorem orPlanes_lt (b : Nat) : orPlanes b < 2 ^ 50 := by
  unfold orPlanes
  generalize hl : List.range 25 = l
  have hmem : ∀ c ∈ l, c < 25 := by
    intro c hc
    rw [← hl] at hc
    exact List.mem_range.mp hc
  clear hl
  induction l with
  | nil =>
    simp only [List.map_nil, listOr, List.foldr_nil]
    norm_num
  | cons x l ih =>
    simp only [List.map_cons, listOr, List.foldr_cons]
    apply Nat.or_lt_two_pow
    · apply Nat.or_lt_two_pow
      · split
        · exact contrib_lt 0 x (by norm_num) (hmem x (by simp))
        · norm_num
      · split
        · exact contrib_lt 1 x (by norm_num) (hmem x (by simp))
        · norm_num
    · exact ih (fun c hc => hmem c (by simp [hc]))

theorem maskOf_shr (b : Nat) : maskOf b >>> 50 = b >>> 50 := by
  unfold maskOf
  rw [or_shr, shl_shr_self, shr_eq_zero (orPlanes_lt b), Nat.or_zero]

theorem maskOf_low (b : Nat) {j : Nat} (hj : j < 50) :
    (maskOf b).testBit j = (orPlanes b).testBit j := by
  unfold maskOf
  simp [Nat.testBit_or, testBit_shl50_low hj]

theorem orPlanes_testBit (b j : Nat) :
    (orPlanes b).testBit j =
      (List.range 25).any (fun c =>
        (b.testBit c && (contrib 0 c).testBit j) ||
        (b.testBit (25 + c) && (contrib 1 c).testBit j)) := by
  unfold orPlanes
  rw [listOr_testBit, List.any_map]
  congr 1
  funext c
  simp only [Function.comp, Nat.testBit_or]
  congr 1 <;> split <;> simp_all [Nat.zero_testBit]


/-- Invariants maintained by legal play. -/
structure Inv (b m : Nat) : Prop where
  turn_eq : b >>> 50 = m >>> 50
  turn_pos : 1 ≤ b >>> 50
  turn_bound : b >>> 50 + (if nomoves b m = true then 1 else 0) ≤ 2 * pieces b + 2
  start_case : b >>> 50 = 1 → b = INIT ∧ m = INIT
  disj : ∀ c, c < 25 → ¬(b.testBit c = true ∧ b.testBit (25 + c) = true)
  occ : ∀ c, c < 25 → b.testBit c = true ∨ b.testBit (25 + c) = true →
      m.testBit c = true ∧ m.testBit (25 + c) = true
  mask_eq : m = maskOf b
  cnt0 : (movesOf b 0).length ≤ b >>> 50 / 2
  cnt1 : (movesOf b 1).length ≤ (b >>> 50 - 1) / 2

theorem pieces_le (b : Nat) : pieces b ≤ 25 := by
  have h := List.countP_le_length (l := List.range 25)
    (p := fun c => b.testBit c || b.testBit (25 + c))
  simpa [pieces] using h

theorem INIT_low : ∀ j, j < 50 → Nat.testBit INIT j = false := by decide

theorem blocks_self : ∀ i, i < 25 → (blocks.getD i 0).testBit i = true := by decide

theorem contrib_cell : ∀ w, w < 2 → ∀ i, i < 25 →
    (contrib w i).testBit i = true ∧ (contrib w i).testBit (25 + i) = true := by decide

/-- Adding one new satisfying element to a predicate bumps `countP`. -/
theorem countP_insert_one (f g : Nat → Bool) (i : Nat) (hf : f i = false) :
    ∀ l : List Nat, l.Nodup → i ∈ l →
      (∀ c ∈ l, g c = (f c || decide (c = i))) →
      l.countP g = l.countP f + 1 := by
  intro l
  induction l with
  | nil =>
    intro _ hmem _
    cases hmem
  | cons x l ih =>
    intro hl hmem hfg
    rw [List.countP_cons, List.countP_cons]
    rcases List.mem_cons.mp hmem with hx | hx
    · subst hx
      have hgx : g i = true := by
        rw [hfg i (by simp), hf]
        simp
      have hnotin : i ∉ l := (List.nodup_cons.mp hl).1
      have htail : l.countP g = l.countP f := by
        apply List.countP_congr
        intro c hc
        have hne : c ≠ i := fun hcx => hnotin (hcx ▸ hc)
        rw [hfg c (by simp [hc])]
        simp [hne]
      rw [htail, hgx, hf]
      simp
    · have hgx : g x = f x := by
        have hne : x ≠ i := by
          intro hxi
          subst hxi
          exact (List.nodup_cons.mp hl).1 hx
        rw [hfg x (by simp)]
        simp [hne]
      rw [hgx, ih (List.nodup_cons.mp hl).2 hx (fun c hc => hfg c (by simp [hc]))]
      omega

/-- The base case: the empty board and mask satisfy the invariants. -/
theorem inv_init : Inv INIT INIT := by
  constructor
  · rfl
  · decide
  · decide
  · intro _
    exact ⟨rfl, rfl⟩
  · decide
  · decide
  · decide
  · decide
  · decide


/-- Legal placement preserves the invariants. -/
theorem inv_move {b m i : Nat} (inv : Inv b m) (hi : i < 25) (hv : valid m i = true) :
    Inv (place b i) (mask m i) := by
  obtain ⟨hteq, htpos, htb, hstart, hdisj, hocc, hmask, hcnt0, hcnt1⟩ := inv
  have hp25 := pieces_le b
  have ht52 : b >>> 50 ≤ 52 := by
    have h := htb
    split at h <;> omega
  have ht14 : b >>> 50 + 1 < 2 ^ 14 := by omega
  have hbt : place b i >>> 50 = b >>> 50 + 1 := by
    rw [turn_place b i hi, Nat.mod_eq_of_lt ht14]
  have hmt : mask m i >>> 50 = b >>> 50 + 1 := by
    rw [turn_mask m i hi, ← hteq, Nat.mod_eq_of_lt ht14]
  have hw2 := who_lt_two (b >>> 50)
  have hww : who (b >>> 50) = 0 ∨ who (b >>> 50) = 1 := by omega
  have hwmod := who_eq (b >>> 50)
  -- the placed cell is unoccupied in both planes
  have hfree : b.testBit i = false ∧ b.testBit (25 + i) = false := by
    rcases eq_or_ne (b >>> 50) 1 with h1 | h1
    · obtain ⟨hb, _⟩ := hstart h1
      subst hb
      exact ⟨INIT_low i (by omega), INIT_low (25 + i) (by omega)⟩
    · have hm1 : m >>> 50 ≠ 1 := by
        rw [← hteq]
        exact h1
      have hclear := valid_bit_clear hv hm1
      rw [← hteq] at hclear
      constructor
      · by_contra hb
        rw [Bool.not_eq_false] at hb
        obtain ⟨hm1', hm2'⟩ := hocc i hi (Or.inl hb)
        rcases hww with hw | hw
        · rw [hw] at hclear
          simp only [Nat.zero_mul, Nat.zero_add] at hclear
          rw [hclear] at hm1'
          exact Bool.noConfusion hm1'
        · rw [hw] at hclear
          simp only [Nat.one_mul] at hclear
          rw [hclear] at hm2'
          exact Bool.noConfusion hm2'
      · by_contra hb
        rw [Bool.not_eq_false] at hb
        obtain ⟨hm1', hm2'⟩ := hocc i hi (Or.inr hb)
        rcases hww with hw | hw
        · rw [hw] at hclear
          simp only [Nat.zero_mul, Nat.zero_add] at hclear
          rw [hclear] at hm1'
          exact Bool.noConfusion hm1'
        · rw [hw] at hclear
          simp only [Nat.one_mul] at hclear
          rw [hclear] at hm2'
          exact Bool.noConfusion hm2'
  have hb'low : ∀ j, j < 50 →
      (place b i).testBit j = (b.testBit j || decide (who (b >>> 50) * 25 + i = j)) :=
    fun j hj => testBit_low_place b i hi hj
  have hm'low : ∀ j, j < 50 →
      (mask m i).testBit j = (m.testBit j || (contrib (who (b >>> 50)) i).testBit j) := by
    intro j hj
    have h := testBit_low_mask m i hi hj
    rw [← hteq] at h
    exact h
  constructor
  · rw [hbt, hmt]
  · rw [hbt]
    omega
  · -- turn bound
    rw [hbt]
    have hpieces : pieces (place b i) = pieces b + 1 := by
      unfold pieces
      apply countP_insert_one (fun c => b.testBit c || b.testBit (25 + c)) _ i
        (by simp [hfree.1, hfree.2]) (List.range 25) (List.nodup_range 25)
        (List.mem_range.mpr hi)
      intro c hc
      have hc25 := List.mem_range.mp hc
      rw [hb'low c (by omega), hb'low (25 + c) (by omega)]
      have e1 : decide (who (b >>> 50) * 25 + i = c) =
          (decide (who (b >>> 50) = 0) && decide (c = i)) := by
        rcases hww with hw | hw <;> rw [hw] <;> rw [Bool.eq_iff_iff] <;> simp <;> omega
      have e2 : decide (who (b >>> 50) * 25 + i = 25 + c) =
          (decide (who (b >>> 50) = 1) && decide (c = i)) := by
        rcases hww with hw | hw <;> rw [hw] <;> rw [Bool.eq_iff_iff] <;> simp <;> omega
      rw [e1, e2]
      rcases hww with hw | hw <;> rw [hw] <;>
        cases b.testBit c <;> cases b.testBit (25 + c) <;> cases hdec : decide (c = i) <;>
        simp
    rw [hpieces]
    have h1 : (if nomoves (place b i) (mask m i) = true then 1 else 0) ≤ 1 := by
      split <;> omega
    omega
  · intro h1
    rw [hbt] at h1
    exact absurd h1 (by omega)
  · -- disjointness
    intro c hc hand
    obtain ⟨ha, hb2⟩ := hand
    rw [hb'low c (by omega)] at ha
    rw [hb'low (25 + c) (by omega)] at hb2
    rcases hww with hw | hw
    · rw [hw] at ha hb2
      simp only [Nat.zero_mul, Nat.zero_add] at ha hb2
      have hne : decide (i = 25 + c) = false := by
        simp only [decide_eq_false_iff_not]
        omega
      rw [hne, Bool.or_false] at hb2
      rcases Bool.or_eq_true_iff.mp ha with ha' | ha'
      · exact hdisj c hc ⟨ha', hb2⟩
      · have hci : i = c := of_decide_eq_true ha'
        subst hci
        rw [hfree.2] at hb2
        exact Bool.noConfusion hb2
    · rw [hw] at ha hb2
      simp only [Nat.one_mul] at ha hb2
      have hne : decide (25 + i = c) = false := by
        simp only [decide_eq_false_iff_not]
        omega
      rw [hne, Bool.or_false] at ha
      rcases Bool.or_eq_true_iff.mp hb2 with hb' | hb'
      · exact hdisj c hc ⟨ha, hb'⟩
      · have hci : i = c := by
          have := of_decide_eq_true hb'
          omega
        subst hci
        rw [hfree.1] at ha
        exact Bool.noConfusion ha
  · -- occupied implies forbidden
    intro c hc hor
    have hcontrib := contrib_cell (who (b >>> 50)) hw2 i hi
    by_cases hci : c = i
    · subst hci
      constructor
      · rw [hm'low c (by omega), hcontrib.1]
        simp
      · rw [hm'low (25 + c) (by omega), hcontrib.2]
        simp
    · have hold : b.testBit c = true ∨ b.testBit (25 + c) = true := by
        rcases hor with h | h
        · left
          rw [hb'low c (by omega)] at h
          have hne : decide (who (b >>> 50) * 25 + i = c) = false := by
            simp only [decide_eq_false_iff_not]
            rcases hww with hw | hw <;> rw [hw] <;> omega
          rw [hne, Bool.or_false] at h
          exact h
        · right
          rw [hb'low (25 + c) (by omega)] at h
          have hne : decide (who (b >>> 50) * 25 + i = 25 + c) = false := by
            simp only [decide_eq_false_iff_not]
            rcases hww with hw | hw <;> rw [hw] <;> omega
          rw [hne, Bool.or_false] at h
          exact h
      obtain ⟨hm1', hm2'⟩ := hocc c hc hold
      constructor
      · rw [hm'low c (by omega), hm1']
        simp
      · rw [hm'low (25 + c) (by omega), hm2']
        simp
  · -- the lockstep mask is determined by the board
    apply parts_ext
    · intro j hj
      rw [hm'low j hj, maskOf_low _ hj, orPlanes_testBit, hmask, maskOf_low _ hj,
        orPlanes_testBit]
      rw [Bool.eq_iff_iff, Bool.or_eq_true, List.any_eq_true, List.any_eq_true]
      constructor
      · rintro (⟨c, hcmem, hcterm⟩ | hcj)
        · refine ⟨c, hcmem, ?_⟩
          have hc25 := List.mem_range.mp hcmem
          rw [Bool.or_eq_true] at hcterm ⊢
          rcases hcterm with h | h
          · left
            rw [Bool.and_eq_true] at h ⊢
            exact ⟨by rw [hb'low c (by omega), h.1]; simp, h.2⟩
          · right
            rw [Bool.and_eq_true] at h ⊢
            exact ⟨by rw [hb'low (25 + c) (by omega), h.1]; simp, h.2⟩
        · refine ⟨i, List.mem_range.mpr hi, ?_⟩
          rw [Bool.or_eq_true]
          rcases hww with hw | hw
          · left
            rw [Bool.and_eq_true]
            constructor
            · rw [hb'low i (by omega), hw]
              simp
            · rw [← hw]
              exact hcj
          · right
            rw [Bool.and_eq_true]
            constructor
            · rw [hb'low (25 + i) (by omega), hw]
              simp
            · rw [← hw]
              exact hcj
      · rintro ⟨c, hcmem, hcterm⟩
        have hc25 := List.mem_range.mp hcmem
        by_cases hci : c = i
        · subst hci
          rw [Bool.or_eq_true, Bool.and_eq_true, Bool.and_eq_true] at hcterm
          rcases hcterm with ⟨h1, h2⟩ | ⟨h1, h2⟩
          · rw [hb'low c (by omega), hfree.1] at h1
            rcases hww with hw | hw
            · right
              rw [hw]
              exact h2
            · rw [hw] at h1
              simp only [Nat.one_mul, Bool.false_or, decide_eq_true_eq] at h1
              omega
          · rw [hb'low (25 + c) (by omega), hfree.2] at h1
            rcases hww with hw | hw
            · rw [hw] at h1
              simp only [Nat.zero_mul, Nat.zero_add, Bool.false_or, decide_eq_true_eq] at h1
              omega
            · right
              rw [hw]
              exact h2
        · left
          refine ⟨c, hcmem, ?_⟩
          rw [Bool.or_eq_true] at hcterm ⊢
          rcases hcterm with h | h
          · left
            rw [Bool.and_eq_true] at h ⊢
            refine ⟨?_, h.2⟩
            have h1 := h.1
            rw [hb'low c (by omega)] at h1
            have hne : decide (who (b >>> 50) * 25 + i = c) = false := by
              simp only [decide_eq_false_iff_not]
              rcases hww with hw | hw <;> rw [hw] <;> omega
            rw [hne, Bool.or_false] at h1
            exact h1
          · right
            rw [Bool.and_eq_true] at h ⊢
            refine ⟨?_, h.2⟩
            have h1 := h.1
            rw [hb'low (25 + c) (by omega)] at h1
            have hne : decide (who (b >>> 50) * 25 + i = 25 + c) = false := by
              simp only [decide_eq_false_iff_not]
              rcases hww with hw | hw <;> rw [hw] <;> omega
            rw [hne, Bool.or_false] at h1
            exact h1
    · rw [hmt, maskOf_shr, hbt]
  · -- player-0 move count
    rw [hbt]
    rcases hww with hw | hw
    · have hown : (movesOf (place b i) 0).length = (movesOf b 0).length + 1 := by
        unfold movesOf
        rw [← List.countP_eq_length_filter, ← List.countP_eq_length_filter]
        apply countP_insert_one (fun c => b.testBit (0 * 25 + c)) _ i
          (by simpa using hfree.1) (List.range 25) (List.nodup_range 25)
          (List.mem_range.mpr hi)
        intro c hc
        have hc25 := List.mem_range.mp hc
        rw [hb'low (0 * 25 + c) (by omega), hw]
        have he : decide ((0 : Nat) * 25 + i = 0 * 25 + c) = decide (c = i) := by
          rw [decide_eq_decide]
          omega
        rw [he]
      rw [hown]
      have hpar : (b >>> 50 + 1) % 2 = 0 := by
        rw [← hwmod, hw]
      omega
    · have hsame : (movesOf (place b i) 0).length = (movesOf b 0).length := by
        unfold movesOf
        have hfeq : List.filter (fun c => (place b i).testBit (0 * 25 + c)) (List.range 25) =
            List.filter (fun c => b.testBit (0 * 25 + c)) (List.range 25) := by
          apply List.filter_congr
          intro c hc
          have hc25 := List.mem_range.mp hc
          rw [hb'low (0 * 25 + c) (by omega), hw]
          have hne : decide ((1 : Nat) * 25 + i = 0 * 25 + c) = false := by
            simp only [decide_eq_false_iff_not]
            omega
          rw [hne, Bool.or_false]
        rw [hfeq]
      rw [hsame]
      omega
  · -- player-1 move count
    rw [hbt]
    rcases hww with hw | hw
    · have hsame : (movesOf (place b i) 1).length = (movesOf b 1).length := by
        unfold movesOf
        have hfeq : List.filter (fun c => (place b i).testBit (1 * 25 + c)) (List.range 25) =
            List.filter (fun c => b.testBit (1 * 25 + c)) (List.range 25) := by
          apply List.filter_congr
          intro c hc
          have hc25 := List.mem_range.mp hc
          rw [hb'low (1 * 25 + c) (by omega), hw]
          have hne : decide ((0 : Nat) * 25 + i = 1 * 25 + c) = false := by
            simp only [decide_eq_false_iff_not]
            omega
          rw [hne, Bool.or_false]
        rw [hfeq]
      rw [hsame]
      omega
    · have hown : (movesOf (place b i) 1).length = (movesOf b 1).length + 1 := by
        unfold movesOf
        rw [← List.countP_eq_length_filter, ← List.countP_eq_length_filter]
        apply countP_insert_one (fun c => b.testBit (1 * 25 + c)) _ i
          (by simpa using hfree.2) (List.range 25) (List.nodup_range 25)
          (List.mem_range.mpr hi)
        intro c hc
        have hc25 := List.mem_range.mp hc
        rw [hb'low (1 * 25 + c) (by omega), hw]
        have he : decide ((1 : Nat) * 25 + i = 1 * 25 + c) = decide (c = i) := by
          rw [decide_eq_decide]
          omega
        rw [he]
      rw [hown]
      have hpar : (b >>> 50 + 1) % 2 = 1 := by
        rw [← hwmod, hw]
      omega


theorem any_congr {l : List Nat} {f g : Nat → Bool} (h : ∀ c ∈ l, f c = g c) :
    l.any f = l.any g := by
  induction l with
  | nil => rfl
  | cons x l ih =>
    simp only [List.any_cons]
    rw [h x (by simp), ih (fun c hc => h c (by simp [hc]))]

/-- A legal pass preserves the invariants. -/
theorem inv_skip {b m : Nat} (inv : Inv b m) (hn : nomoves b m = true)
    (hc : iscomplete b m = false) : Inv (pass b) (pass m) := by
  obtain ⟨hteq, htpos, htb, hstart, hdisj, hocc, hmask, hcnt0, hcnt1⟩ := inv
  have hp25 := pieces_le b
  have ht52 : b >>> 50 ≤ 52 := by
    have h := htb
    split at h <;> omega
  have ht14 : b >>> 50 + 1 < 2 ^ 14 := by omega
  have hbt : pass b >>> 50 = b >>> 50 + 1 := by
    rw [turn_pass, Nat.mod_eq_of_lt ht14]
  have hmt : pass m >>> 50 = b >>> 50 + 1 := by
    rw [turn_pass, ← hteq, Nat.mod_eq_of_lt ht14]
  have hblow : ∀ j, j < 50 → (pass b).testBit j = b.testBit j :=
    fun j hj => testBit_low_pass b hj
  have hmlow : ∀ j, j < 50 → (pass m).testBit j = m.testBit j :=
    fun j hj => testBit_low_pass m hj
  have hpieces : pieces (pass b) = pieces b := by
    unfold pieces
    apply List.countP_congr
    intro c hcmem
    have hc25 := List.mem_range.mp hcmem
    rw [hblow c (by omega), hblow (25 + c) (by omega)]
  have hnom' := nomoves_pass_false hn hc
  constructor
  · rw [hbt, hmt]
  · rw [hbt]
    omega
  · rw [hbt, hpieces, hnom']
    rw [hn] at htb
    simp at htb
    simp only [Bool.false_eq_true, if_false]
    omega
  · intro h1
    rw [hbt] at h1
    exact absurd h1 (by omega)
  · intro c hcc hand
    apply hdisj c hcc
    rw [← hblow c (by omega), ← hblow (25 + c) (by omega)]
    exact hand
  · intro c hcc hor
    rw [hblow c (by omega), hblow (25 + c) (by omega)] at hor
    obtain ⟨h1, h2⟩ := hocc c hcc hor
    rw [hmlow c (by omega), hmlow (25 + c) (by omega)]
    exact ⟨h1, h2⟩
  · apply parts_ext
    · intro j hj
      rw [hmlow j hj, hmask, maskOf_low _ hj, maskOf_low _ hj, orPlanes_testBit,
        orPlanes_testBit]
      apply any_congr
      intro c hcmem
      have hc25 := List.mem_range.mp hcmem
      rw [hblow c (by omega), hblow (25 + c) (by omega)]
    · rw [hmt, maskOf_shr, hbt]
  · have hsame : (movesOf (pass b) 0).length = (movesOf b 0).length := by
      unfold movesOf
      have hfeq : List.filter (fun c => (pass b).testBit (0 * 25 + c)) (List.range 25) =
          List.filter (fun c => b.testBit (0 * 25 + c)) (List.range 25) := by
        apply List.filter_congr
        intro c hcmem
        have hc25 := List.mem_range.mp hcmem
        rw [hblow (0 * 25 + c) (by omega)]
      rw [hfeq]
    rw [hbt, hsame]
    omega
  · have hsame : (movesOf (pass b) 1).length = (movesOf b 1).length := by
      unfold movesOf
      have hfeq : List.filter (fun c => (pass b).testBit (1 * 25 + c)) (List.range 25) =
          List.filter (fun c => b.testBit (1 * 25 + c)) (List.range 25) := by
        apply List.filter_congr
        intro c hcmem
        have hc25 := List.mem_range.mp hcmem
        rw [hblow (1 * 25 + c) (by omega)]
      rw [hfeq]
    rw [hbt, hsame]
    omega

/-- Every position reachable by legal play satisfies the invariants. -/
theorem inv_of_reach {b m : Nat} (h : Reach b m) : Inv b m := by
  induction h with
  | init => exact inv_init
  | move i hr hi hv ih => exact inv_move ih hi hv
  | skip hr hn hc ih => exact inv_skip ih hn hc


/-! ## Correctness of `derive` -/

theorem listOr_append (l1 l2 : List Nat) : listOr (l1 ++ l2) = listOr l1 ||| listOr l2 := by
  induction l1 with
  | nil => simp [listOr]
  | cons x l ih =>
    rw [show listOr (x :: l ++ l2) = x ||| listOr (l ++ l2) from rfl,
      show listOr (x :: l) = x ||| listOr l from rfl, ih, Nat.or_assoc]

theorem listOr_lt {l : List Nat} {n : Nat} (h : ∀ x ∈ l, x < 2 ^ n) : listOr l < 2 ^ n := by
  induction l with
  | nil =>
    simp only [listOr, List.foldr_nil]
    exact Nat.pos_pow_of_pos n (by norm_num)
  | cons x l ih =>
    rw [show listOr (x :: l) = x ||| listOr l from rfl]
    exact Nat.or_lt_two_pow (h x (by simp)) (ih (fun y hy => h y (by simp [hy])))

theorem movesOf_mem_lt {b p c : Nat} (h : c ∈ movesOf b p) : c < 25 := by
  unfold movesOf at h
  exact List.mem_range.mp (List.mem_filter.mp h).1

theorem contribs_lt (b p w : Nat) (hw : w < 2) (l : List Nat) (hl : ∀ c ∈ l, c < 25) :
    listOr (l.map (contrib w)) < 2 ^ 50 := by
  apply listOr_lt
  intro x hx
  obtain ⟨c, hc, rfl⟩ := List.mem_map.mp hx
  exact contrib_lt w c hw (hl c hc)

theorem and_mask_of_lt {x n : Nat} (h : x < 2 ^ n) : x &&& (2 ^ n - 1) = x := by
  apply Nat.eq_of_testBit_eq
  intro j
  rcases Nat.lt_or_ge j n with hj | hj
  · simp [and_mask_testBit, hj]
  · rw [and_mask_testBit]
    have hxf : x.testBit j = false :=
      Nat.testBit_lt_two_pow (lt_of_lt_of_le h (Nat.pow_le_pow_right (by norm_num) hj))
    have hjn : ¬ (j < n) := by omega
    simp [hxf, hjn]

/-- `pass` written without the modulus, away from the turn-field wrap. -/
theorem pass_eq (m : Nat) (ht : m >>> 50 + 1 < 2 ^ 14) :
    pass m = ((m >>> 50 + 1) <<< 50) ||| (m &&& 0x3ffffffffffff) := by
  simp only [pass]
  rw [shl50_mod64, Nat.mod_eq_of_lt ht]

/-- `mask` written without the modulus, away from the turn-field wrap. -/
theorem mask_eq_or_contrib (m c : Nat) (hc : c < 25) (ht : m >>> 50 + 1 < 2 ^ 14) :
    mask m c =
      ((m >>> 50 + 1) <<< 50) ||| (m &&& 0x3ffffffffffff) ||| contrib (who (m >>> 50)) c := by
  simp only [mask, contrib]
  rw [shl50_mod64, Nat.mod_eq_of_lt ht, one_shl_mod64_eq (who_bit_lt hc), Nat.or_assoc]

/-- The replay state after `k` loop iterations of `derive`. -/
def replayAt (b k : Nat) : Nat :=
  ((k + 1) <<< 50) |||
    listOr (((movesOf b 0).take ((k + 1) / 2)).map (contrib 0)) |||
    listOr (((movesOf b 1).take (k / 2)).map (contrib 1))

theorem replayAt_state (b k : Nat) :
    replayAt b k &&& 0x3ffffffffffff =
      listOr (((movesOf b 0).take ((k + 1) / 2)).map (contrib 0)) |||
      listOr (((movesOf b 1).take (k / 2)).map (contrib 1)) := by
  have h0 : listOr (((movesOf b 0).take ((k + 1) / 2)).map (contrib 0)) < 2 ^ 50 :=
    contribs_lt b 0 0 (by norm_num) _ (fun c hc => movesOf_mem_lt (List.mem_of_mem_take hc))
  have h1 : listOr (((movesOf b 1).take (k / 2)).map (contrib 1)) < 2 ^ 50 :=
    contribs_lt b 1 1 (by norm_num) _ (fun c hc => movesOf_mem_lt (List.mem_of_mem_take hc))
  unfold replayAt
  apply Nat.eq_of_testBit_eq
  intro j
  simp only [Nat.testBit_and, Nat.testBit_or, testBit_c50]
  rcases Nat.lt_or_ge j 50 with hj | hj
  · have hd : decide (j < 50) = true := by simp [hj]
    rw [testBit_shl50_low hj, hd, Bool.and_true, Bool.false_or]
  · have hd : decide (j < 50) = false := by
      simp only [decide_eq_false_iff_not]
      omega
    have hb0 : (listOr (((movesOf b 0).take ((k + 1) / 2)).map (contrib 0))).testBit j =
        false :=
      Nat.testBit_lt_two_pow (lt_of_lt_of_le h0 (Nat.pow_le_pow_right (by norm_num) hj))
    have hb1 : (listOr (((movesOf b 1).take (k / 2)).map (contrib 1))).testBit j = false :=
      Nat.testBit_lt_two_pow (lt_of_lt_of_le h1 (Nat.pow_le_pow_right (by norm_num) hj))
    rw [hd, hb0, hb1, Bool.and_false, Bool.or_false]

theorem replayAt_shr (b k : Nat) : replayAt b k >>> 50 = k + 1 := by
  have h0 : listOr (((movesOf b 0).take ((k + 1) / 2)).map (contrib 0)) < 2 ^ 50 :=
    contribs_lt b 0 0 (by norm_num) _ (fun c hc => movesOf_mem_lt (List.mem_of_mem_take hc))
  have h1 : listOr (((movesOf b 1).take (k / 2)).map (contrib 1)) < 2 ^ 50 :=
    contribs_lt b 1 1 (by norm_num) _ (fun c hc => movesOf_mem_lt (List.mem_of_mem_take hc))
  unfold replayAt
  rw [or_shr, or_shr, shl_shr_self, shr_eq_zero h0, shr_eq_zero h1, Nat.or_zero, Nat.or_zero]

theorem replayAt_zero (b : Nat) : replayAt b 0 = INIT := by
  unfold replayAt
  simp [listOr, INIT]


theorem listOr_singleton (x : Nat) : listOr [x] = x := by
  simp [listOr]

theorem deriveStep_some {m k c : Nat} {l0 l1 : List Nat}
    (h : (if k % 2 = 0 then l0 else l1).get? (k / 2) = some c) :
    deriveStep l0 l1 m k = mask m c := by
  unfold deriveStep
  rw [h]

theorem deriveStep_none {m k : Nat} {l0 l1 : List Nat}
    (h : (if k % 2 = 0 then l0 else l1).get? (k / 2) = none) :
    deriveStep l0 l1 m k = pass m := by
  unfold deriveStep
  rw [h]

/-- One `derive` replay iteration advances the replay state. -/
theorem replay_step (b k : Nat) (hk : k + 2 < 2 ^ 14) :
    deriveStep (movesOf b 0) (movesOf b 1) (replayAt b k) k = replayAt b (k + 1) := by
  rcases Nat.mod_two_eq_zero_or_one k with hp | hp
  · cases hget : (movesOf b 0).get? (k / 2) with
    | none =>
      have hlen : (movesOf b 0).length ≤ k / 2 := by
        rw [List.get?_eq_getElem?] at hget
        exact List.getElem?_eq_none_iff.mp hget
      rw [deriveStep_none (by rw [if_pos hp]; exact hget)]
      rw [pass_eq _ (by rw [replayAt_shr]; omega), replayAt_shr, replayAt_state]
      unfold replayAt
      have hA : (movesOf b 0).take ((k + 1 + 1) / 2) = (movesOf b 0).take ((k + 1) / 2) := by
        rw [List.take_of_length_le (by omega), List.take_of_length_le (by omega)]
      have hB : (k + 1) / 2 = k / 2 := by omega
      rw [hA, hB, Nat.or_assoc]
    | some c =>
      have hc25 : c < 25 := movesOf_mem_lt (List.get?_mem hget)
      rw [deriveStep_some (by rw [if_pos hp]; exact hget)]
      rw [mask_eq_or_contrib _ c hc25 (by rw [replayAt_shr]; omega), replayAt_shr,
        replayAt_state]
      have hwho : who (k + 1) = 0 := by
        rw [who_eq]
        omega
      rw [hwho]
      unfold replayAt
      have htake : (movesOf b 0).take ((k + 1 + 1) / 2) =
          (movesOf b 0).take ((k + 1) / 2) ++ [c] := by
        have h2 : (k + 1 + 1) / 2 = k / 2 + 1 := by omega
        have h3 : (k + 1) / 2 = k / 2 := by omega
        rw [h2, h3, List.take_succ, ← List.get?_eq_getElem?, hget]
        rfl
      have hB : (k + 1) / 2 = k / 2 := by omega
      rw [htake, List.map_append, listOr_append, List.map_singleton, listOr_singleton, hB]
      simp only [Nat.or_assoc]
      rw [Nat.or_comm (listOr (List.map (contrib 1) (List.take (k / 2) (movesOf b 1))))
        (contrib 0 c)]
  · cases hget : (movesOf b 1).get? (k / 2) with
    | none =>
      have hlen : (movesOf b 1).length ≤ k / 2 := by
        rw [List.get?_eq_getElem?] at hget
        exact List.getElem?_eq_none_iff.mp hget
      rw [deriveStep_none (by rw [if_neg (by omega)]; exact hget)]
      rw [pass_eq _ (by rw [replayAt_shr]; omega), replayAt_shr, replayAt_state]
      unfold replayAt
      have hA : (movesOf b 0).take ((k + 1 + 1) / 2) = (movesOf b 0).take ((k + 1) / 2) := by
        have h2 : (k + 1 + 1) / 2 = (k + 1) / 2 := by omega
        rw [h2]
      have hB : (movesOf b 1).take ((k + 1) / 2) = (movesOf b 1).take (k / 2) := by
        rw [List.take_of_length_le (by omega), List.take_of_length_le (by omega)]
      rw [hA, hB, Nat.or_assoc]
    | some c =>
      have hc25 : c < 25 := movesOf_mem_lt (List.get?_mem hget)
      rw [deriveStep_some (by rw [if_neg (by omega)]; exact hget)]
      rw [mask_eq_or_contrib _ c hc25 (by rw [replayAt_shr]; omega), replayAt_shr,
        replayAt_state]
      have hwho : who (k + 1) = 1 := by
        rw [who_eq]
        omega
      rw [hwho]
      unfold replayAt
      have htake : (movesOf b 1).take ((k + 1) / 2) = (movesOf b 1).take (k / 2) ++ [c] := by
        have h2 : (k + 1) / 2 = k / 2 + 1 := by omega
        rw [h2, List.take_succ, ← List.get?_eq_getElem?, hget]
        rfl
      have hA : (movesOf b 0).take ((k + 1 + 1) / 2) = (movesOf b 0).take ((k + 1) / 2) := by
        have h2 : (k + 1 + 1) / 2 = (k + 1) / 2 := by omega
        rw [h2]
      rw [htake, List.map_append, listOr_append, List.map_singleton, listOr_singleton, hA]
      simp only [Nat.or_assoc]


theorem replay_loop (b : Nat) : ∀ k, k + 1 < 2 ^ 14 →
    (List.range k).foldl (deriveStep (movesOf b 0) (movesOf b 1)) INIT = replayAt b k := by
  intro k
  induction k with
  | zero =>
    intro _
    rw [List.range_zero, List.foldl_nil, replayAt_zero]
  | succ k ih =>
    intro hk
    rw [List.range_succ, List.foldl_append, ih (by omega), List.foldl_cons, List.foldl_nil,
      replay_step b k (by omega)]

theorem orPlanes_eq_moves (b : Nat) :
    orPlanes b =
      listOr ((movesOf b 0).map (contrib 0)) ||| listOr ((movesOf b 1).map (contrib 1)) := by
  apply Nat.eq_of_testBit_eq
  intro j
  rw [orPlanes_testBit, Nat.testBit_or, listOr_testBit, listOr_testBit, List.any_map,
    List.any_map]
  rw [Bool.eq_iff_iff, Bool.or_eq_true, List.any_eq_true, List.any_eq_true, List.any_eq_true]
  constructor
  · rintro ⟨c, hcmem, hterm⟩
    rcases Bool.or_eq_true_iff.mp hterm with h | h
    · rw [Bool.and_eq_true] at h
      left
      refine ⟨c, ?_, ?_⟩
      · unfold movesOf
        rw [List.mem_filter]
        refine ⟨hcmem, ?_⟩
        simpa using h.1
      · simpa [Function.comp] using h.2
    · rw [Bool.and_eq_true] at h
      right
      refine ⟨c, ?_, ?_⟩
      · unfold movesOf
        rw [List.mem_filter]
        refine ⟨hcmem, ?_⟩
        simpa using h.1
      · simpa [Function.comp] using h.2
  · rintro (⟨c, hcmem, hterm⟩ | ⟨c, hcmem, hterm⟩)
    · unfold movesOf at hcmem
      rw [List.mem_filter] at hcmem
      refine ⟨c, hcmem.1, ?_⟩
      have hb : b.testBit c = true := by
        simpa using hcmem.2
      rw [hb]
      simp only [Bool.true_and]
      rw [Bool.or_eq_true]
      left
      simpa [Function.comp] using hterm
    · unfold movesOf at hcmem
      rw [List.mem_filter] at hcmem
      refine ⟨c, hcmem.1, ?_⟩
      have hb : b.testBit (25 + c) = true := by
        simpa using hcmem.2
      rw [hb]
      simp only [Bool.true_and]
      rw [Bool.or_eq_true]
      right
      simpa [Function.comp] using hterm

/-- On boards whose per-player move counts fit the elapsed turns, the
replay in `derive` reconstructs exactly the mask determined by the
board. -/
theorem derive_eq_maskOf {b : Nat} (ht : 1 ≤ b >>> 50) (h53 : b >>> 50 ≤ 53)
    (hc0 : (movesOf b 0).length ≤ b >>> 50 / 2)
    (hc1 : (movesOf b 1).length ≤ (b >>> 50 - 1) / 2) :
    derive b = maskOf b := by
  unfold derive
  have htn : (turn b).toNat = b >>> 50 - 1 := by
    unfold turn
    omega
  rw [htn, replay_loop b (b >>> 50 - 1) (by omega)]
  unfold replayAt maskOf
  have ht1 : b >>> 50 - 1 + 1 = b >>> 50 := by omega
  rw [ht1]
  rw [List.take_of_length_le (by omega), List.take_of_length_le (by omega),
    orPlanes_eq_moves, Nat.or_assoc]


/-- `derive` reconstructs the lockstep mask of any legally reached position. -/
theorem derive_reach {b m : Nat} (h : Reach b m) : derive b = m := by
  have inv := inv_of_reach h
  have hp25 := pieces_le b
  have ht52 : b >>> 50 ≤ 52 := by
    have hb := inv.turn_bound
    split at hb <;> omega
  rw [derive_eq_maskOf inv.turn_pos (by omega) inv.cnt0 inv.cnt1, ← inv.mask_eq]

/-! ## Repeated passing and the turn-field wrap -/

/-- `n` consecutive passes. -/
def passN : Nat → Nat → Nat
  | 0, x => x
  | n + 1, x => pass (passN n x)

theorem tfield_shr {T s : Nat} (hs : s < 2 ^ 50) : (T <<< 50 ||| s) >>> 50 = T := by
  rw [or_shr, shl_shr_self, shr_eq_zero hs, Nat.or_zero]

theorem tfield_and {T s : Nat} (hs : s < 2 ^ 50) :
    (T <<< 50 ||| s) &&& 0x3ffffffffffff = s := by
  apply Nat.eq_of_testBit_eq
  intro j
  simp only [Nat.testBit_and, Nat.testBit_or, testBit_c50]
  rcases Nat.lt_or_ge j 50 with hj | hj
  · have hd : decide (j < 50) = true := by simp [hj]
    rw [testBit_shl50_low hj, hd, Bool.false_or, Bool.and_true]
  · have hd : decide (j < 50) = false := by
      simp only [decide_eq_false_iff_not]
      omega
    have hsf : s.testBit j = false :=
      Nat.testBit_lt_two_pow (lt_of_lt_of_le hs (Nat.pow_le_pow_right (by norm_num) hj))
    rw [hd, Bool.and_false, hsf]

theorem pass_closed (y : Nat) :
    pass y = ((y >>> 50 + 1) % 2 ^ 14) <<< 50 ||| (y &&& 0x3ffffffffffff) := by
  simp only [pass]
  rw [shl50_mod64]

theorem passN_closed : ∀ n x, passN (n + 1) x =
    ((x >>> 50 + (n + 1)) % 2 ^ 14) <<< 50 ||| (x &&& 0x3ffffffffffff) := by
  intro n
  induction n with
  | zero =>
    intro x
    show pass (passN 0 x) = _
    exact pass_closed x
  | succ n ih =>
    intro x
    show pass (passN (n + 1) x) = _
    rw [ih x, pass_closed, tfield_shr (state_lt x), tfield_and (state_lt x)]
    have h : ((x >>> 50 + (n + 1)) % 2 ^ 14 + 1) % 2 ^ 14 =
        (x >>> 50 + (n + 1 + 1)) % 2 ^ 14 := by omega
    rw [h]

theorem iscomplete_pass (b m : Nat) : iscomplete (pass b) (pass m) = iscomplete b m := by
  unfold iscomplete
  have h1 : (pass b >>> 25 ||| pass m >>> 25) &&& 0x1ffffff =
      (b >>> 25 ||| m >>> 25) &&& 0x1ffffff := by
    apply Nat.eq_of_testBit_eq
    intro j
    simp only [Nat.testBit_and, Nat.testBit_or, Nat.testBit_shiftRight, testBit_c25]
    rcases Nat.lt_or_ge j 25 with hj | hj
    · rw [testBit_low_pass b (by omega), testBit_low_pass m (by omega)]
    · have hd : decide (j < 25) = false := by
        simp only [decide_eq_false_iff_not]
        omega
      rw [hd, Bool.and_false, Bool.and_false]
  have h2 : (pass b ||| pass m) &&& 0x1ffffff = (b ||| m) &&& 0x1ffffff := by
    apply Nat.eq_of_testBit_eq
    intro j
    simp only [Nat.testBit_and, Nat.testBit_or, testBit_c25]
    rcases Nat.lt_or_ge j 25 with hj | hj
    · rw [testBit_low_pass b (by omega), testBit_low_pass m (by omega)]
    · have hd : decide (j < 25) = false := by
        simp only [decide_eq_false_iff_not]
        omega
      rw [hd, Bool.and_false, Bool.and_false]
  rw [h1, h2]

theorem nomoves_of_complete {b m : Nat} (h : iscomplete b m = true) :
    nomoves b m = true := by
  rw [iscomplete_iff] at h
  rw [nomoves_iff]
  intro c hc
  have hw := who_lt_two (b >>> 50)
  rcases (by omega : who (b >>> 50) = 0 ∨ who (b >>> 50) = 1) with hww | hww
  · rw [hww]
    simpa using h.2 c hc
  · rw [hww]
    simpa using h.1 c hc

theorem reachP_passN : ∀ n {b m : Nat}, ReachP b m → iscomplete b m = true →
    ReachP (passN n b) (passN n m) := by
  intro n
  induction n with
  | zero =>
    intro b m h _
    exact h
  | succ n ih =>
    intro b m h hcomp
    show ReachP (pass (passN n b)) (pass (passN n m))
    apply ReachP.skip (ih h hcomp)
    apply nomoves_of_complete
    have hpres : ∀ k, iscomplete (passN k b) (passN k m) = true := by
      intro k
      induction k with
      | zero => exact hcomp
      | succ k ihk =>
        show iscomplete (pass (passN k b)) (pass (passN k m)) = true
        rw [iscomplete_pass]
        exact ihk
    exact hpres n

theorem reachU_passN : ∀ n {b m : Nat}, ReachU b m → ReachU (passN n b) (passN n m) := by
  intro n
  induction n with
  | zero =>
    intro b m h
    exact h
  | succ n ih =>
    intro b m h
    show ReachU (pass (passN n b)) (pass (passN n m))
    exact ReachU.skip (ih h)


/-! ## The symmetry group of the board -/

/-- A function that distributes over bitwise or. -/
def BitDistrib (f : Nat → Nat) : Prop :=
  f 0 = 0 ∧ ∀ x y, f (x ||| y) = f x ||| f y

theorem or_mod64 (x y : Nat) : (x ||| y) % 2 ^ 64 = x % 2 ^ 64 ||| y % 2 ^ 64 := by
  apply Nat.eq_of_testBit_eq
  intro j
  simp only [Nat.testBit_mod_two_pow, Nat.testBit_or]
  cases hx : x.testBit j <;> cases hy : y.testBit j <;> simp

theorem or_shl (x y n : Nat) : (x ||| y) <<< n = x <<< n ||| y <<< n := by
  apply Nat.eq_of_testBit_eq
  intro j
  simp [Nat.testBit_shiftLeft, Nat.testBit_or, Bool.and_or_distrib_left]

theorem or_and_right (x y M : Nat) : (x ||| y) &&& M = (x &&& M) ||| (y &&& M) := by
  apply Nat.eq_of_testBit_eq
  intro j
  simp only [Nat.testBit_and, Nat.testBit_or]
  cases hm : M.testBit j <;> simp

theorem or_left_comm (a b c : Nat) : a ||| (b ||| c) = b ||| (a ||| c) := by
  rw [← Nat.or_assoc, Nat.or_comm a b, Nat.or_assoc]

theorem or_or_or (a b c d : Nat) : (a ||| b) ||| (c ||| d) = (a ||| c) ||| (b ||| d) := by
  rw [Nat.or_assoc, Nat.or_assoc, or_left_comm b c d]

theorem listOr_zipWith_or : ∀ l1 l2 : List Nat, l1.length = l2.length →
    listOr (List.zipWith (fun a b => a ||| b) l1 l2) = listOr l1 ||| listOr l2 := by
  intro l1
  induction l1 with
  | nil =>
    intro l2 h
    cases l2 with
    | nil => simp [listOr]
    | cons b l2 => exact absurd h (by simp)
  | cons a l ih =>
    intro l2 h
    cases l2 with
    | nil => exact absurd h (by simp)
    | cons b l2 =>
      show (a ||| b) ||| listOr (List.zipWith (fun a b => a ||| b) l l2) =
        (a ||| listOr l) ||| (b ||| listOr l2)
      rw [ih l2 (by simpa using h), or_or_or]

theorem transpose_eq_listOr (b : Nat) : transpose b =
    listOr [(b >>> 16) &&& 0x00000020000010, (b >>> 12) &&& 0x00000410000208,
      (b >>> 8) &&& 0x00008208004104, (b >>> 4) &&& 0x00104104082082,
      b &&& 0xfe082083041041, (b <<< 4) % 2 ^ 64 &&& 0x01041040820820,
      (b <<< 8) % 2 ^ 64 &&& 0x00820800410400, (b <<< 12) % 2 ^ 64 &&& 0x00410000208000,
      (b <<< 16) % 2 ^ 64 &&& 0x00200000100000] := by
  simp only [transpose, listOr, List.foldr, Nat.or_zero, Nat.or_assoc]

theorem flipv_eq_listOr (b : Nat) : flipv b =
    listOr [(b >>> 20) &&& 0x0000003e00001f, (b >>> 10) &&& 0x000007c00003e0,
      b &&& 0xfc00f800007c00, (b <<< 10) % 2 ^ 64 &&& 0x001f00000f8000,
      (b <<< 20) % 2 ^ 64 &&& 0x03e00001f00000] := by
  simp only [flipv, listOr, List.foldr, Nat.or_zero, Nat.or_assoc]

theorem transpose_distrib : BitDistrib transpose := by
  refine ⟨rfl, fun x y => ?_⟩
  have hz := listOr_zipWith_or
    [x >>> 16 &&& 0x00000020000010,
      x >>> 12 &&& 0x00000410000208,
      x >>> 8 &&& 0x00008208004104,
      x >>> 4 &&& 0x00104104082082,
      x &&& 0xfe082083041041,
      x <<< 4 % 2 ^ 64 &&& 0x01041040820820,
      x <<< 8 % 2 ^ 64 &&& 0x00820800410400,
      x <<< 12 % 2 ^ 64 &&& 0x00410000208000,
      x <<< 16 % 2 ^ 64 &&& 0x00200000100000]
    [y >>> 16 &&& 0x00000020000010,
      y >>> 12 &&& 0x00000410000208,
      y >>> 8 &&& 0x00008208004104,
      y >>> 4 &&& 0x00104104082082,
      y &&& 0xfe082083041041,
      y <<< 4 % 2 ^ 64 &&& 0x01041040820820,
      y <<< 8 % 2 ^ 64 &&& 0x00820800410400,
      y <<< 12 % 2 ^ 64 &&& 0x00410000208000,
      y <<< 16 % 2 ^ 64 &&& 0x00200000100000] (by simp)
  rw [transpose_eq_listOr, transpose_eq_listOr x, transpose_eq_listOr y, ← hz]
  refine congrArg listOr ?_
  rw [or_shr, or_shr, or_shr, or_shr, or_shl, or_shl, or_shl, or_shl,
    or_mod64, or_mod64, or_mod64, or_mod64, or_and_right, or_and_right, or_and_right,
    or_and_right, or_and_right, or_and_right, or_and_right, or_and_right, or_and_right]
  rfl

theorem flipv_distrib : BitDistrib flipv := by
  refine ⟨rfl, fun x y => ?_⟩
  have hz := listOr_zipWith_or
    [x >>> 20 &&& 0x0000003e00001f,
      x >>> 10 &&& 0x000007c00003e0,
      x &&& 0xfc00f800007c00,
      x <<< 10 % 2 ^ 64 &&& 0x001f00000f8000,
      x <<< 20 % 2 ^ 64 &&& 0x03e00001f00000]
    [y >>> 20 &&& 0x0000003e00001f,
      y >>> 10 &&& 0x000007c00003e0,
      y &&& 0xfc00f800007c00,
      y <<< 10 % 2 ^ 64 &&& 0x001f00000f8000,
      y <<< 20 % 2 ^ 64 &&& 0x03e00001f00000] (by simp)
  rw [flipv_eq_listOr, flipv_eq_listOr x, flipv_eq_listOr y, ← hz]
  refine congrArg listOr ?_
  rw [or_shr, or_shr, or_shl, or_shl, or_mod64, or_mod64, or_and_right, or_and_right,
    or_and_right, or_and_right, or_and_right]
  rfl

theorem transpose_lt (b : Nat) : transpose b < 2 ^ 56 := by
  unfold transpose
  have h : ∀ x M : Nat, M < 2 ^ 56 → x &&& M < 2 ^ 56 :=
    fun x M hM => lt_of_le_of_lt Nat.and_le_right hM
  apply Nat.or_lt_two_pow
  apply Nat.or_lt_two_pow
  apply Nat.or_lt_two_pow
  apply Nat.or_lt_two_pow
  apply Nat.or_lt_two_pow
  apply Nat.or_lt_two_pow
  apply Nat.or_lt_two_pow
  apply Nat.or_lt_two_pow
  all_goals exact h _ _ (by norm_num)

theorem flipv_lt (b : Nat) : flipv b < 2 ^ 56 := by
  unfold flipv
  have h : ∀ x M : Nat, M < 2 ^ 56 → x &&& M < 2 ^ 56 :=
    fun x M hM => lt_of_le_of_lt Nat.and_le_right hM
  apply Nat.or_lt_two_pow
  apply Nat.or_lt_two_pow
  apply Nat.or_lt_two_pow
  apply Nat.or_lt_two_pow
  all_goals exact h _ _ (by norm_num)

theorem or_decomp {n b : Nat} (hb : b < 2 ^ n) :
    b = listOr ((List.range n).map (fun i => if b.testBit i then 1 <<< i else 0)) := by
  apply Nat.eq_of_testBit_eq
  intro j
  rw [listOr_testBit, List.any_map]
  rw [Bool.eq_iff_iff, List.any_eq_true]
  constructor
  · intro hbj
    have hjn : j < n := by
      by_contra hc
      have hf : b.testBit j = false :=
        Nat.testBit_lt_two_pow
          (lt_of_lt_of_le hb (Nat.pow_le_pow_right (by norm_num) (by omega)))
      rw [hf] at hbj
      exact Bool.noConfusion hbj
    refine ⟨j, List.mem_range.mpr hjn, ?_⟩
    simp only [Function.comp]
    rw [if_pos hbj, one_shl_testBit]
    simp
  · rintro ⟨i, _, hterm⟩
    simp only [Function.comp] at hterm
    by_cases hbi : b.testBit i = true
    · rw [if_pos hbi, one_shl_testBit] at hterm
      have hij : i = j := of_decide_eq_true hterm
      subst hij
      exact hbi
    · rw [if_neg hbi] at hterm
      rw [Nat.zero_testBit] at hterm
      exact Bool.noConfusion hterm

theorem distrib_listOr {f : Nat → Nat} (hf : BitDistrib f) :
    ∀ l : List Nat, f (listOr l) = listOr (l.map f) := by
  intro l
  induction l with
  | nil => exact hf.1
  | cons x l ih =>
    rw [show listOr (x :: l) = x ||| listOr l from rfl, hf.2,
      show (x :: l).map f = f x :: l.map f from rfl,
      show listOr (f x :: l.map f) = f x ||| listOr (l.map f) from rfl, ih]

/-- Two or-distributive functions agreeing on the 56 single bits agree on
every 56-bit value. -/
theorem distrib_ext {f g : Nat → Nat} (hf : BitDistrib f) (hg : BitDistrib g)
    (hfg : ∀ i, i < 56 → f (1 <<< i) = g (1 <<< i)) :
    ∀ b, b < 2 ^ 56 → f b = g b := by
  intro b hb
  have hd := or_decomp hb
  have hmaps : (List.map (fun i => if b.testBit i then 1 <<< i else 0) (List.range 56)).map f
      = (List.map (fun i => if b.testBit i then 1 <<< i else 0) (List.range 56)).map g := by
    rw [List.map_map, List.map_map]
    apply List.map_congr_left
    intro i him
    have hi56 := List.mem_range.mp him
    simp only [Function.comp]
    split
    · exact hfg i hi56
    · rw [hf.1, hg.1]
  calc f b = f (listOr ((List.range 56).map (fun i => if b.testBit i then 1 <<< i else 0))) :=
        by rw [← hd]
    _ = listOr (((List.range 56).map (fun i => if b.testBit i then 1 <<< i else 0)).map f) :=
        distrib_listOr hf _
    _ = listOr (((List.range 56).map (fun i => if b.testBit i then 1 <<< i else 0)).map g) :=
        by rw [hmaps]
    _ = g (listOr ((List.range 56).map (fun i => if b.testBit i then 1 <<< i else 0))) :=
        (distrib_listOr hg _).symm
    _ = g b := by rw [← hd]

theorem distrib_comp {f g : Nat → Nat} (hf : BitDistrib f) (hg : BitDistrib g) :
    BitDistrib (fun x => f (g x)) := by
  constructor
  · show f (g 0) = 0
    rw [hg.1, hf.1]
  · intro x y
    show f (g (x ||| y)) = f (g x) ||| f (g y)
    rw [hg.2, hf.2]

theorem distrib_id : BitDistrib (fun x : Nat => x) := ⟨rfl, fun _ _ => rfl⟩

theorem transpose_transpose {b : Nat} (hb : b < 2 ^ 56) : transpose (transpose b) = b := by
  have hsingle : ∀ i, i < 56 → transpose (transpose (1 <<< i)) = 1 <<< i := by decide
  exact distrib_ext (distrib_comp transpose_distrib transpose_distrib) distrib_id
    hsingle b hb

theorem flipv_flipv {b : Nat} (hb : b < 2 ^ 56) : flipv (flipv b) = b := by
  have hsingle : ∀ i, i < 56 → flipv (flipv (1 <<< i)) = 1 <<< i := by decide
  exact distrib_ext (distrib_comp flipv_distrib flipv_distrib) distrib_id hsingle b hb

theorem ftft4 {b : Nat} (hb : b < 2 ^ 56) :
    flipv (transpose (flipv (transpose (flipv (transpose (flipv (transpose b))))))) = b := by
  have hsingle : ∀ i, i < 56 →
      flipv (transpose (flipv (transpose (flipv (transpose (flipv (transpose (1 <<< i)))))))) =
        1 <<< i := by decide
  have hd : BitDistrib
      (fun x => flipv (transpose (flipv (transpose (flipv (transpose (flipv (transpose x)))))))) := by
    apply distrib_comp flipv_distrib
    apply distrib_comp transpose_distrib
    apply distrib_comp flipv_distrib
    apply distrib_comp transpose_distrib
    apply distrib_comp flipv_distrib
    apply distrib_comp transpose_distrib
    exact distrib_comp flipv_distrib transpose_distrib
  exact distrib_ext hd distrib_id hsingle b hb

def orbitList (b : Nat) : List Nat :=
  [b, transpose b, flipv (transpose b), transpose (flipv (transpose b)),
    flipv (transpose (flipv (transpose b))),
    transpose (flipv (transpose (flipv (transpose b)))),
    flipv (transpose (flipv (transpose (flipv (transpose b))))),
    transpose (flipv (transpose (flipv (transpose (flipv (transpose b))))))]

theorem min_if (c x : Nat) : (if c < x then c else x) = min c x := by
  rw [Nat.min_def]
  split <;> split <;> omega

theorem canonicalize_eq_foldl (b : Nat) :
    canonicalize b = List.foldl min b (orbitList b) := by
  simp only [canonicalize, orbitList, List.foldl, min_if, Nat.min_self]

theorem foldl_min_le_init : ∀ (l : List Nat) (a : Nat), List.foldl min a l ≤ a := by
  intro l
  induction l with
  | nil => intro a; exact Nat.le_refl a
  | cons x l ih =>
    intro a
    exact Nat.le_trans (ih (min a x)) (Nat.min_le_left a x)

theorem foldl_min_le_mem : ∀ (l : List Nat) (a : Nat), ∀ x ∈ l, List.foldl min a l ≤ x := by
  intro l
  induction l with
  | nil => intro a x hx; exact absurd hx (List.not_mem_nil x)
  | cons y l ih =>
    intro a x hx
    rcases List.mem_cons.mp hx with h | h
    · subst h
      exact Nat.le_trans (foldl_min_le_init l (min a x)) (Nat.min_le_right a x)
    · exact ih (min a y) x h

theorem foldl_min_mem : ∀ (l : List Nat) (a : Nat), List.foldl min a l = a ∨ List.foldl min a l ∈ l := by
  intro l
  induction l with
  | nil => intro a; exact Or.inl rfl
  | cons y l ih =>
    intro a
    rcases ih (min a y) with h | h
    · rcases Nat.le_total a y with hay | hya
      · exact Or.inl (h.trans (Nat.min_eq_left hay))
      · refine Or.inr ?_
        show List.foldl min (min a y) l ∈ y :: l
        rw [h, Nat.min_eq_right hya]
        exact List.mem_cons_self y l
    · exact Or.inr (List.mem_cons_of_mem y h)

theorem foldl_min_eq {a1 a2 : Nat} {l1 l2 : List Nat} (h1 : a1 ∈ l1) (h2 : a2 ∈ l2)
    (s12 : ∀ x ∈ l1, x ∈ l2) (s21 : ∀ x ∈ l2, x ∈ l1) :
    List.foldl min a1 l1 = List.foldl min a2 l2 := by
  apply Nat.le_antisymm
  · rcases foldl_min_mem l2 a2 with h | h
    · rw [h]; exact foldl_min_le_mem l1 a1 a2 (s21 a2 h2)
    · exact foldl_min_le_mem l1 a1 _ (s21 _ h)
  · rcases foldl_min_mem l1 a1 with h | h
    · rw [h]; exact foldl_min_le_mem l2 a2 a1 (s12 a1 h1)
    · exact foldl_min_le_mem l2 a2 _ (s12 _ h)

theorem mem_orbit_self (b : Nat) : b ∈ orbitList b := by
  simp [orbitList]

theorem word1 {b : Nat} (hb : b < 2 ^ 56) :
    flipv (transpose (flipv (transpose (flipv (transpose (flipv (b))))))) = transpose (b) := by
  have hdl : BitDistrib (fun x => flipv (transpose (flipv (transpose (flipv (transpose (flipv (x)))))))) := by
    apply distrib_comp flipv_distrib
    apply distrib_comp transpose_distrib
    apply distrib_comp flipv_distrib
    apply distrib_comp transpose_distrib
    apply distrib_comp flipv_distrib
    exact distrib_comp transpose_distrib flipv_distrib
  have hdr := transpose_distrib
  have hs : ∀ i, i < 56 → flipv (transpose (flipv (transpose (flipv (transpose (flipv (1 <<< i))))))) = transpose (1 <<< i) := by
    decide
  exact distrib_ext hdl hdr hs b hb

theorem word2 {b : Nat} (hb : b < 2 ^ 56) :
    transpose (flipv (transpose (flipv (transpose (flipv (b)))))) = flipv (transpose (b)) := by
  have hdl : BitDistrib (fun x => transpose (flipv (transpose (flipv (transpose (flipv (x))))))) := by
    apply distrib_comp transpose_distrib
    apply distrib_comp flipv_distrib
    apply distrib_comp transpose_distrib
    apply distrib_comp flipv_distrib
    exact distrib_comp transpose_distrib flipv_distrib
  have hdr : BitDistrib (fun x => flipv (transpose (x))) := by
    exact distrib_comp flipv_distrib transpose_distrib
  have hs : ∀ i, i < 56 → transpose (flipv (transpose (flipv (transpose (flipv (1 <<< i)))))) = flipv (transpose (1 <<< i)) := by
    decide
  exact distrib_ext hdl hdr hs b hb

theorem word3 {b : Nat} (hb : b < 2 ^ 56) :
    flipv (transpose (flipv (transpose (flipv (b))))) = transpose (flipv (transpose (b))) := by
  have hdl : BitDistrib (fun x => flipv (transpose (flipv (transpose (flipv (x)))))) := by
    apply distrib_comp flipv_distrib
    apply distrib_comp transpose_distrib
    apply distrib_comp flipv_distrib
    exact distrib_comp transpose_distrib flipv_distrib
  have hdr : BitDistrib (fun x => transpose (flipv (transpose (x)))) := by
    apply distrib_comp transpose_distrib
    exact distrib_comp flipv_distrib transpose_distrib
  have hs : ∀ i, i < 56 → flipv (transpose (flipv (transpose (flipv (1 <<< i))))) = transpose (flipv (transpose (1 <<< i))) := by
    decide
  exact distrib_ext hdl hdr hs b hb

theorem word4 {b : Nat} (hb : b < 2 ^ 56) :
    transpose (flipv (transpose (flipv (b)))) = flipv (transpose (flipv (transpose (b)))) := by
  have hdl : BitDistrib (fun x => transpose (flipv (transpose (flipv (x))))) := by
    apply distrib_comp transpose_distrib
    apply distrib_comp flipv_distrib
    exact distrib_comp transpose_distrib flipv_distrib
  have hdr : BitDistrib (fun x => flipv (transpose (flipv (transpose (x))))) := by
    apply distrib_comp flipv_distrib
    apply distrib_comp transpose_distrib
    exact distrib_comp flipv_distrib transpose_distrib
  have hs : ∀ i, i < 56 → transpose (flipv (transpose (flipv (1 <<< i)))) = flipv (transpose (flipv (transpose (1 <<< i)))) := by
    decide
  exact distrib_ext hdl hdr hs b hb

theorem word5 {b : Nat} (hb : b < 2 ^ 56) :
    flipv (transpose (flipv (b))) = transpose (flipv (transpose (flipv (transpose (b))))) := by
  have hdl : BitDistrib (fun x => flipv (transpose (flipv (x)))) := by
    apply distrib_comp flipv_distrib
    exact distrib_comp transpose_distrib flipv_distrib
  have hdr : BitDistrib (fun x => transpose (flipv (transpose (flipv (transpose (x)))))) := by
    apply distrib_comp transpose_distrib
    apply distrib_comp flipv_distrib
    apply distrib_comp transpose_distrib
    exact distrib_comp flipv_distrib transpose_distrib
  have hs : ∀ i, i < 56 → flipv (transpose (flipv (1 <<< i))) = transpose (flipv (transpose (flipv (transpose (1 <<< i))))) := by
    decide
  exact distrib_ext hdl hdr hs b hb

theorem word6 {b : Nat} (hb : b < 2 ^ 56) :
    transpose (flipv (b)) = flipv (transpose (flipv (transpose (flipv (transpose (b)))))) := by
  have hdl : BitDistrib (fun x => transpose (flipv (x))) := by
    exact distrib_comp transpose_distrib flipv_distrib
  have hdr : BitDistrib (fun x => flipv (transpose (flipv (transpose (flipv (transpose (x))))))) := by
    apply distrib_comp flipv_distrib
    apply distrib_comp transpose_distrib
    apply distrib_comp flipv_distrib
    apply distrib_comp transpose_distrib
    exact distrib_comp flipv_distrib transpose_distrib
  have hs : ∀ i, i < 56 → transpose (flipv (1 <<< i)) = flipv (transpose (flipv (transpose (flipv (transpose (1 <<< i)))))) := by
    decide
  exact distrib_ext hdl hdr hs b hb

theorem word7 {b : Nat} (hb : b < 2 ^ 56) :
    flipv (b) = transpose (flipv (transpose (flipv (transpose (flipv (transpose (b))))))) := by
  have hdl := flipv_distrib
  have hdr : BitDistrib (fun x => transpose (flipv (transpose (flipv (transpose (flipv (transpose (x)))))))) := by
    apply distrib_comp transpose_distrib
    apply distrib_comp flipv_distrib
    apply distrib_comp transpose_distrib
    apply distrib_comp flipv_distrib
    apply distrib_comp transpose_distrib
    exact distrib_comp flipv_distrib transpose_distrib
  have hs : ∀ i, i < 56 → flipv (1 <<< i) = transpose (flipv (transpose (flipv (transpose (flipv (transpose (1 <<< i))))))) := by
    decide
  exact distrib_ext hdl hdr hs b hb

theorem orbit_transpose_sub {b : Nat} (hb : b < 2 ^ 56) :
    ∀ x ∈ orbitList (transpose b), x ∈ orbitList b := by
  intro x hx
  simp only [orbitList, List.mem_cons, List.not_mem_nil, or_false] at hx ⊢
  rcases hx with h|h|h|h|h|h|h|h <;> subst h
  · exact Or.inr (Or.inl rfl)
  · exact Or.inl (transpose_transpose hb)
  · refine Or.inr (Or.inr (Or.inr (Or.inr (Or.inr (Or.inr (Or.inr (?_)))))))
    rw [transpose_transpose hb]
    exact word7 hb
  · refine Or.inr (Or.inr (Or.inr (Or.inr (Or.inr (Or.inr (Or.inl ?_))))))
    rw [transpose_transpose hb]
    exact word6 hb
  · refine Or.inr (Or.inr (Or.inr (Or.inr (Or.inr (Or.inl ?_)))))
    rw [transpose_transpose hb]
    exact word5 hb
  · refine Or.inr (Or.inr (Or.inr (Or.inr (Or.inl ?_))))
    rw [transpose_transpose hb]
    exact word4 hb
  · refine Or.inr (Or.inr (Or.inr (Or.inl ?_)))
    rw [transpose_transpose hb]
    exact word3 hb
  · refine Or.inr (Or.inr (Or.inl ?_))
    rw [transpose_transpose hb]
    exact word2 hb

theorem orbit_transpose_sup {b : Nat} (hb : b < 2 ^ 56) :
    ∀ x ∈ orbitList b, x ∈ orbitList (transpose b) := by
  intro x hx
  simp only [orbitList, List.mem_cons, List.not_mem_nil, or_false] at hx ⊢
  rcases hx with h|h|h|h|h|h|h|h <;> subst h
  · exact Or.inr (Or.inl (transpose_transpose hb).symm)
  · exact Or.inl rfl
  · refine Or.inr (Or.inr (Or.inr (Or.inr (Or.inr (Or.inr (Or.inr (?_)))))))
    rw [transpose_transpose hb]
    exact (word2 hb).symm
  · refine Or.inr (Or.inr (Or.inr (Or.inr (Or.inr (Or.inr (Or.inl ?_))))))
    rw [transpose_transpose hb]
    exact (word3 hb).symm
  · refine Or.inr (Or.inr (Or.inr (Or.inr (Or.inr (Or.inl ?_)))))
    rw [transpose_transpose hb]
    exact (word4 hb).symm
  · refine Or.inr (Or.inr (Or.inr (Or.inr (Or.inl ?_))))
    rw [transpose_transpose hb]
    exact (word5 hb).symm
  · refine Or.inr (Or.inr (Or.inr (Or.inl ?_)))
    rw [transpose_transpose hb]
    exact (word6 hb).symm
  · refine Or.inr (Or.inr (Or.inl ?_))
    rw [transpose_transpose hb]
    exact (word7 hb).symm

theorem orbit_flipv_sub {b : Nat} (hb : b < 2 ^ 56) :
    ∀ x ∈ orbitList (flipv b), x ∈ orbitList b := by
  intro x hx
  simp only [orbitList, List.mem_cons, List.not_mem_nil, or_false] at hx ⊢
  rcases hx with h|h|h|h|h|h|h|h <;> subst h
  · exact Or.inr (Or.inr (Or.inr (Or.inr (Or.inr (Or.inr (Or.inr ((word7 hb))))))))
  · exact Or.inr (Or.inr (Or.inr (Or.inr (Or.inr (Or.inr (Or.inl (word6 hb)))))))
  · exact Or.inr (Or.inr (Or.inr (Or.inr (Or.inr (Or.inl (word5 hb))))))
  · exact Or.inr (Or.inr (Or.inr (Or.inr (Or.inl (word4 hb)))))
  · exact Or.inr (Or.inr (Or.inr (Or.inl (word3 hb))))
  · exact Or.inr (Or.inr (Or.inl (word2 hb)))
  · exact Or.inr (Or.inl (word1 hb))
  · refine Or.inl ?_
    rw [word1 hb]
    exact transpose_transpose hb

theorem orbit_flipv_sup {b : Nat} (hb : b < 2 ^ 56) :
    ∀ x ∈ orbitList b, x ∈ orbitList (flipv b) := by
  intro x hx
  simp only [orbitList, List.mem_cons, List.not_mem_nil, or_false] at hx ⊢
  rcases hx with h|h|h|h|h|h|h|h <;> subst h
  · refine Or.inr (Or.inr (Or.inr (Or.inr (Or.inr (Or.inr (Or.inr (?_)))))))
    rw [word1 hb, transpose_transpose hb]
  · exact Or.inr (Or.inr (Or.inr (Or.inr (Or.inr (Or.inr (Or.inl (word1 hb).symm))))))
  · exact Or.inr (Or.inr (Or.inr (Or.inr (Or.inr (Or.inl (word2 hb).symm)))))
  · exact Or.inr (Or.inr (Or.inr (Or.inr (Or.inl (word3 hb).symm))))
  · exact Or.inr (Or.inr (Or.inr (Or.inl (word4 hb).symm)))
  · exact Or.inr (Or.inr (Or.inl (word5 hb).symm))
  · exact Or.inr (Or.inl (word6 hb).symm)
  · exact Or.inl (word7 hb).symm

theorem canonicalize_transpose {b : Nat} (hb : b < 2 ^ 56) :
    canonicalize (transpose b) = canonicalize b := by
  rw [canonicalize_eq_foldl, canonicalize_eq_foldl]
  exact foldl_min_eq (mem_orbit_self _) (mem_orbit_self _)
    (orbit_transpose_sub hb) (orbit_transpose_sup hb)

theorem canonicalize_flipv {b : Nat} (hb : b < 2 ^ 56) :
    canonicalize (flipv b) = canonicalize b := by
  rw [canonicalize_eq_foldl, canonicalize_eq_foldl]
  exact foldl_min_eq (mem_orbit_self _) (mem_orbit_self _)
    (orbit_flipv_sub hb) (orbit_flipv_sup hb)

theorem canonicalize_orbit {b : Nat} (hb : b < 2 ^ 56) :
    ∀ x ∈ orbitList b, canonicalize x = canonicalize b := by
  intro x hx
  simp only [orbitList, List.mem_cons, List.not_mem_nil, or_false] at hx
  rcases hx with h|h|h|h|h|h|h|h <;> subst h
  · rfl
  · exact canonicalize_transpose hb
  · rw [canonicalize_flipv (transpose_lt b), canonicalize_transpose hb]
  · rw [canonicalize_transpose (flipv_lt _), canonicalize_flipv (transpose_lt b),
      canonicalize_transpose hb]
  · rw [canonicalize_flipv (transpose_lt _), canonicalize_transpose (flipv_lt _),
      canonicalize_flipv (transpose_lt b), canonicalize_transpose hb]
  · rw [canonicalize_transpose (flipv_lt _), canonicalize_flipv (transpose_lt _),
      canonicalize_transpose (flipv_lt _), canonicalize_flipv (transpose_lt b),
      canonicalize_transpose hb]
  · rw [canonicalize_flipv (transpose_lt _), canonicalize_transpose (flipv_lt _),
      canonicalize_flipv (transpose_lt _), canonicalize_transpose (flipv_lt _),
      canonicalize_flipv (transpose_lt b), canonicalize_transpose hb]
  · rw [canonicalize_transpose (flipv_lt _), canonicalize_flipv (transpose_lt _),
      canonicalize_transpose (flipv_lt _), canonicalize_flipv (transpose_lt _),
      canonicalize_transpose (flipv_lt _), canonicalize_flipv (transpose_lt b),
      canonicalize_transpose hb]

theorem orbit_closure {b : Nat} (hb : b < 2 ^ 56) :
    ∀ x ∈ orbitList b, transpose x ∈ orbitList b ∧ flipv x ∈ orbitList b := by
  intro x hx
  simp only [orbitList, List.mem_cons, List.not_mem_nil, or_false] at hx ⊢
  rcases hx with h|h|h|h|h|h|h|h <;> subst h
  · exact ⟨Or.inr (Or.inl rfl),
      Or.inr (Or.inr (Or.inr (Or.inr (Or.inr (Or.inr (Or.inr (word7 hb)))))))⟩
  · exact ⟨Or.inl (transpose_transpose hb), Or.inr (Or.inr (Or.inl rfl))⟩
  · exact ⟨Or.inr (Or.inr (Or.inr (Or.inl rfl))),
      Or.inr (Or.inl (flipv_flipv (transpose_lt b)))⟩
  · exact ⟨Or.inr (Or.inr (Or.inl (transpose_transpose (flipv_lt _)))),
      Or.inr (Or.inr (Or.inr (Or.inr (Or.inl rfl))))⟩
  · exact ⟨Or.inr (Or.inr (Or.inr (Or.inr (Or.inr (Or.inl rfl))))),
      Or.inr (Or.inr (Or.inr (Or.inl (flipv_flipv (transpose_lt _)))))⟩
  · exact ⟨Or.inr (Or.inr (Or.inr (Or.inr (Or.inl (transpose_transpose (flipv_lt _)))))),
      Or.inr (Or.inr (Or.inr (Or.inr (Or.inr (Or.inr (Or.inl rfl))))))⟩
  · exact ⟨Or.inr (Or.inr (Or.inr (Or.inr (Or.inr (Or.inr (Or.inr rfl)))))),
      Or.inr (Or.inr (Or.inr (Or.inr (Or.inr (Or.inl (flipv_flipv (transpose_lt _)))))))⟩
  · exact ⟨Or.inr (Or.inr (Or.inr (Or.inr (Or.inr (Or.inr (Or.inl (transpose_transpose (flipv_lt _)))))))),
      Or.inl (ftft4 hb)⟩


/-! ## Completed games admit no valid move -/

theorem valid_false_of_complete {b m : Nat} (h : Reach b m)
    (hc : iscomplete b m = true) : ∀ i, i < 25 → valid m i = false := by
  intro i hi
  have inv := inv_of_reach h
  have ht1 : ¬ m >>> 50 = 1 := by
    intro h1
    have hstart := inv.start_case (by rw [inv.turn_eq]; exact h1)
    rw [hstart.1, hstart.2] at hc
    exact absurd hc (by decide)
  rw [iscomplete_iff] at hc
  have hw := who_lt_two (m >>> 50)
  have hbit : m.testBit (who (m >>> 50) * 25 + i) = true := by
    rcases (by omega : who (m >>> 50) = 0 ∨ who (m >>> 50) = 1) with hww | hww
    · rw [hww, Nat.zero_mul, Nat.zero_add]
      rcases Bool.or_eq_true_iff.mp (hc.2 i hi) with hb | hm
      · exact (inv.occ i hi (Or.inl hb)).1
      · exact hm
    · rw [hww, Nat.one_mul]
      rcases Bool.or_eq_true_iff.mp (hc.1 i hi) with hb | hm
      · exact (inv.occ i hi (Or.inr hb)).2
      · exact hm
  simp only [valid]
  rw [if_neg ht1, hbit]
  rfl

/-! ## Slot algebra -/

/-- A minimax slot carrying score field `k` and board label `b`. -/
def mkS (b k : Nat) : Nat := k <<< 56 ||| b

theorem testBit_c56 (j : Nat) : Nat.testBit 0xffffffffffffff j = decide (j < 56) := by
  rw [show (0xffffffffffffff : Nat) = 2 ^ 56 - 1 by norm_num, Nat.testBit_two_pow_sub_one]

theorem getboard_mkS {b : Nat} (hb : b < 2 ^ 56) (k : Nat) :
    Minimax.getboard (mkS b k) = b := by
  apply Nat.eq_of_testBit_eq
  intro j
  simp only [Minimax.getboard, mkS, Nat.testBit_and, Nat.testBit_or, Nat.testBit_shiftLeft,
    testBit_c56]
  by_cases hj : j < 56
  · have hge : ¬ 56 ≤ j := by omega
    simp [hj, hge]
  · have hz : b.testBit j = false :=
      Nat.testBit_lt_two_pow (lt_of_lt_of_le hb (Nat.pow_le_pow_right (by norm_num) (by omega)))
    simp [hj, hz]

theorem getscore_mkS {b : Nat} (hb : b < 2 ^ 56) (k : Nat) :
    Minimax.getscore (mkS b k) = (k : Int) - 25 := by
  have hsh : mkS b k >>> 56 = k := by
    rw [mkS, or_shr, shl_shr_self, shr_eq_zero hb, Nat.or_zero]
  rw [Minimax.getscore, hsh]

theorem setboard_mkS (s b : Nat) :
    Minimax.setboard s b = mkS b (s >>> 56 &&& 0x3f) := by
  apply Nat.eq_of_testBit_eq
  intro j
  simp only [Minimax.setboard, mkS, Nat.testBit_or, Nat.testBit_and, Nat.testBit_shiftLeft,
    Nat.testBit_shiftRight,
    show (0x3f00000000000000 : Nat) = 0x3f <<< 56 from by decide]
  by_cases hj : 56 ≤ j
  · have he : 56 + (j - 56) = j := by omega
    simp [hj, he, Bool.and_comm]
  · simp [hj]

theorem combine_mkS {b : Nat} (hb : b < 2 ^ 56) (k0 k1 : Nat) :
    Minimax.combine (mkS b k0) (mkS b k1) =
      mkS b
        (if turn b % 2 ≠ 0 then (if (k0 : Int) < (k1 : Int) then k0 else k1)
         else (if (k1 : Int) < (k0 : Int) then k0 else k1)) := by
  simp only [Minimax.combine, getboard_mkS hb, getscore_mkS hb, gt_iff_lt]
  by_cases hc : turn b % 2 ≠ 0
  · rw [if_pos hc, if_pos hc]
    by_cases h01 : (k0 : Int) - 25 < (k1 : Int) - 25
    · rw [if_pos h01, if_pos (by omega : (k0 : Int) < (k1 : Int))]
    · rw [if_neg h01, if_neg (by omega : ¬ (k0 : Int) < (k1 : Int))]
  · rw [if_neg hc, if_neg hc]
    by_cases h10 : (k1 : Int) - 25 < (k0 : Int) - 25
    · rw [if_pos h10, if_pos (by omega : (k1 : Int) < (k0 : Int))]
    · rw [if_neg h10, if_neg (by omega : ¬ (k1 : Int) < (k0 : Int))]

theorem combine_leftcomm {b : Nat} (hb : b < 2 ^ 56) (k0 k1 k2 : Nat) :
    Minimax.combine (Minimax.combine (mkS b k0) (mkS b k1)) (mkS b k2) =
      Minimax.combine (Minimax.combine (mkS b k0) (mkS b k2)) (mkS b k1) := by
  rw [combine_mkS hb, combine_mkS hb, combine_mkS hb, combine_mkS hb]
  refine congrArg (mkS b) ?_
  by_cases hc : turn b % 2 ≠ 0
  · simp only [if_pos hc]
    split_ifs <;> omega
  · simp only [if_neg hc]
    split_ifs <;> omega

theorem foldl_perm_of_leftcomm {α : Type} (P : α → Prop) (f : α → α → α)
    (hclose : ∀ a x, P a → P x → P (f a x))
    (hcomm : ∀ a x y, P a → P x → P y → f (f a x) y = f (f a y) x) :
    ∀ {l1 l2 : List α}, l1.Perm l2 → ∀ a, P a → (∀ x ∈ l1, P x) →
      List.foldl f a l1 = List.foldl f a l2 := by
  intro l1 l2 hp
  induction hp with
  | nil => intro a _ _; rfl
  | cons x hp ih =>
    intro a ha hl
    exact ih (f a x) (hclose a x ha (hl x (List.mem_cons_self x _)))
      (fun y hy => hl y (List.mem_cons_of_mem x hy))
  | swap x y l =>
    intro a ha hl
    show List.foldl f (f (f a y) x) l = List.foldl f (f (f a x) y) l
    rw [hcomm a y x ha (hl y (List.mem_cons_self y _))
      (hl x (List.mem_cons_of_mem y (List.mem_cons_self x _)))]
  | trans h12 h23 ih12 ih23 =>
    intro a ha hl
    rw [ih12 a ha hl, ih23 a ha (fun x hx => hl x (h12.mem_iff.mpr hx))]

theorem minimax_fold_perm {b : Nat} (hb : b < 2 ^ 56) {l1 l2 : List Nat}
    (hp : l1.Perm l2) (k0 : Nat) :
    List.foldl Minimax.combine (mkS b k0) (l1.map (mkS b)) =
      List.foldl Minimax.combine (mkS b k0) (l2.map (mkS b)) := by
  refine foldl_perm_of_leftcomm (fun s => ∃ k, s = mkS b k) Minimax.combine
    ?_ ?_ (hp.map (mkS b)) (mkS b k0) ⟨k0, rfl⟩ ?_
  · rintro a x ⟨ka, rfl⟩ ⟨kx, rfl⟩
    rw [combine_mkS hb]
    exact ⟨_, rfl⟩
  · rintro a x y ⟨ka, rfl⟩ ⟨kx, rfl⟩ ⟨ky, rfl⟩
    exact combine_leftcomm hb ka kx ky
  · intro x hx
    rcases List.mem_map.mp hx with ⟨k, _, rfl⟩
    exact ⟨k, rfl⟩

theorem tally_leftcomm (a x y : Tally.Slot) :
    Tally.combine (Tally.combine a x) y = Tally.combine (Tally.combine a y) x := by
  simp only [Tally.combine, Tally.Slot.mk.injEq]
  refine ⟨trivial, ?_, ?_, ?_⟩ <;> omega

theorem tally_fold_perm {l1 l2 : List Tally.Slot} (hp : l1.Perm l2) (a : Tally.Slot) :
    List.foldl Tally.combine a l1 = List.foldl Tally.combine a l2 :=
  foldl_perm_of_leftcomm (fun _ => True) Tally.combine (fun _ _ _ _ => trivial)
    (fun a x y _ _ _ => tally_leftcomm a x y) hp a trivial (fun _ _ => trivial)

/-! ## The fold over legal children the specification describes -/

/-- The legal cells of a mask, in ascending index order. -/
def legalCells (m : Nat) : List Nat := (List.range 25).filter (fun i => valid m i)

/-- The combine-fold, over every legal cell in ascending order, of the
relabeled child evaluations, seeded with the initial slot of the parent
canonical board.  (This is the specification wording; compare `eval`.) -/
def childFold {σ : Type} (S : Strategy σ) (b m : Nat) : σ :=
  (legalCells m).foldl
    (fun s i => S.combine s (S.setboard (eval S (place b i) (mask m i)) (canonicalize b)))
    (S.init (canonicalize b))

theorem foldl_filter_if {α β : Type} (p : α → Bool) (f : β → α → β) :
    ∀ (l : List α) (a : β),
      (l.filter p).foldl f a = l.foldl (fun s x => if p x then f s x else s) a := by
  intro l
  induction l with
  | nil => intro a; rfl
  | cons x t ih =>
    intro a
    by_cases hx : p x = true
    · rw [List.filter_cons_of_pos hx, List.foldl_cons, List.foldl_cons, if_pos hx]
      exact ih (f a x)
    · rw [List.filter_cons_of_neg hx, List.foldl_cons,
        if_neg hx]
      exact ih a

theorem eval_childFold {σ : Type} (S : Strategy σ) {b m : Nat}
    (h1 : iscomplete b m = false) (h2 : nomoves b m = false) :
    eval S b m = childFold S b m := by
  rw [eval_fold S h1 h2, childFold, legalCells, foldl_filter_if]

/-! ## Scripted play -/

/-- One half-move: `some i` places on cell `i`, `none` passes. -/
def applyB (b : Nat) (s : Option Nat) : Nat :=
  match s with
  | some i => place b i
  | none => pass b

def applyM (m : Nat) (s : Option Nat) : Nat :=
  match s with
  | some i => mask m i
  | none => pass m

def playB (b : Nat) (l : List (Option Nat)) : Nat := l.foldl applyB b

def playM (m : Nat) (l : List (Option Nat)) : Nat := l.foldl applyM m

/-- Check a script against the rules of legal play. -/
def okR (b m : Nat) : List (Option Nat) → Bool
  | [] => true
  | some i :: t => decide (i < 25) && valid m i && okR (place b i) (mask m i) t
  | none :: t => nomoves b m && !iscomplete b m && okR (pass b) (pass m) t

/-- Check a script where passes need only `nomoves`. -/
def okP (b m : Nat) : List (Option Nat) → Bool
  | [] => true
  | some i :: t => decide (i < 25) && valid m i && okP (place b i) (mask m i) t
  | none :: t => nomoves b m && okP (pass b) (pass m) t

/-- Check a script where passes are unconditional. -/
def okU (m : Nat) : List (Option Nat) → Bool
  | [] => true
  | some i :: t => decide (i < 25) && valid m i && okU (mask m i) t
  | none :: t => okU (pass m) t

theorem reach_play : ∀ (l : List (Option Nat)) {b m : Nat}, Reach b m →
    okR b m l = true → Reach (playB b l) (playM m l) := by
  intro l
  induction l with
  | nil => intro b m h _; exact h
  | cons s t ih =>
    intro b m h hok
    cases s with
    | some i =>
      simp only [okR, Bool.and_eq_true, decide_eq_true_eq] at hok
      exact ih (Reach.move i h hok.1.1 hok.1.2) hok.2
    | none =>
      simp only [okR, Bool.and_eq_true, Bool.not_eq_true'] at hok
      exact ih (Reach.skip h hok.1.1 hok.1.2) hok.2

theorem reachP_play : ∀ (l : List (Option Nat)) {b m : Nat}, ReachP b m →
    okP b m l = true → ReachP (playB b l) (playM m l) := by
  intro l
  induction l with
  | nil => intro b m h _; exact h
  | cons s t ih =>
    intro b m h hok
    cases s with
    | some i =>
      simp only [okP, Bool.and_eq_true, decide_eq_true_eq] at hok
      exact ih (ReachP.move i h hok.1.1 hok.1.2) hok.2
    | none =>
      simp only [okP, Bool.and_eq_true] at hok
      exact ih (ReachP.skip h hok.1) hok.2

theorem reachU_play : ∀ (l : List (Option Nat)) {b m : Nat}, ReachU b m →
    okU m l = true → ReachU (playB b l) (playM m l) := by
  intro l
  induction l with
  | nil => intro b m h _; exact h
  | cons s t ih =>
    intro b m h hok
    cases s with
    | some i =>
      simp only [okU, Bool.and_eq_true, decide_eq_true_eq] at hok
      exact ih (ReachU.move i h hok.1.1 hok.1.2) hok.2
    | none =>
      simp only [okU] at hok
      exact ih (ReachU.skip h) hok


/-! ## Concrete games -/

/-- A full legal game: twelve placements ending with both planes closed. -/
def game12 : List (Option Nat) :=
  [some 7, some 5, some 9, some 22, some 1, some 3, some 11, some 13, some 24,
    some 18, some 16, some 20]

/-- A legal game prefix reaching a position where the mover is blocked
but the game is not complete. -/
def gameC1 : List (Option Nat) :=
  [some 5, some 11, some 9, some 13, some 7, some 18, some 20, some 1, some 15,
    some 22, some 24, some 3]

theorem reach_game12 : Reach 0x34a84051010a82 0x37ffffffffffff := by
  have h := reach_play game12 Reach.init (by decide)
  have hb : playB INIT game12 = 0x34a84051010a82 := by decide
  have hm : playM INIT game12 = 0x37ffffffffffff := by decide
  rw [hb, hm] at h
  exact h

theorem reachP_game12 : ReachP 0x34a84051010a82 0x37ffffffffffff := by
  have h := reachP_play game12 ReachP.init (by decide)
  have hb : playB INIT game12 = 0x34a84051010a82 := by decide
  have hm : playM INIT game12 = 0x37ffffffffffff := by decide
  rw [hb, hm] at h
  exact h

theorem reach_gameC1 : Reach 0x348850151082a0 0x37fbffffffffff := by
  have h := reach_play gameC1 Reach.init (by decide)
  have hb : playB INIT gameC1 = 0x348850151082a0 := by decide
  have hm : playM INIT gameC1 = 0x37fbffffffffff := by decide
  rw [hb, hm] at h
  exact h

theorem and_c6_of_lt {x : Nat} (hx : x < 64) : x &&& 0x3f = x := by
  apply Nat.eq_of_testBit_eq
  intro j
  rw [Nat.testBit_and, show (0x3f : Nat) = 2 ^ 6 - 1 from by norm_num,
    Nat.testBit_two_pow_sub_one]
  by_cases hj : j < 6
  · simp [hj]
  · have h64 : (64 : Nat) ≤ 2 ^ j := by
      calc (64 : Nat) = 2 ^ 6 := rfl
        _ ≤ 2 ^ j := Nat.pow_le_pow_right (by norm_num) (by omega)
    have hz : x.testBit j = false :=
      Nat.testBit_lt_two_pow (lt_of_lt_of_le hx h64)
    simp [hj, hz]

/-! ## The claims -/

/-- C1: as stated the claim fails.  The position below is reachable by
legal play and non-terminal, yet `eval` does not equal the combine-fold
over its (zero) legal cells: when the mover is blocked the code relabels
the evaluation of the passed position instead. -/
theorem eval_not_childFold_cex :
    Reach 0x348850151082a0 0x37fbffffffffff ∧
    iscomplete 0x348850151082a0 0x37fbffffffffff = false ∧
    eval Minimax.strategy 0x348850151082a0 0x37fbffffffffff ≠
      childFold Minimax.strategy 0x348850151082a0 0x37fbffffffffff := by
  refine ⟨reach_gameC1, by decide, ?_⟩
  have hev : eval Minimax.strategy 0x348850151082a0 0x37fbffffffffff =
      0x1834058341a00812 :=
    of_evalF Minimax.strategy 5 0x348850151082a0 0x37fbffffffffff
      0x1834058341a00812 (by decide)
  have hcf : childFold Minimax.strategy 0x348850151082a0 0x37fbffffffffff =
      0x34058341a00812 := by decide
  rw [hev, hcf]
  decide

/-- C1 (amended): for every reachable pair, a terminal position evaluates
to the score of the canonical board; a non-terminal position with at least
one legal move evaluates to the combine-fold over every legal cell in
ascending order of the relabeled child evaluations; and a non-terminal
position whose mover is blocked evaluates to the relabeled evaluation of
the passed position. -/
theorem eval_cases {σ : Type} (S : Strategy σ) {b m : Nat} (h : Reach b m) :
    (iscomplete b m = true → eval S b m = S.score (canonicalize b)) ∧
    (iscomplete b m = false → nomoves b m = false → eval S b m = childFold S b m) ∧
    (iscomplete b m = false → nomoves b m = true →
      eval S b m = S.setboard (eval S (pass b) (pass m)) (canonicalize b)) :=
  ⟨fun hc => eval_complete S hc,
   fun hc hn => eval_childFold S hc hn,
   fun hc hn => eval_nomoves S hc hn⟩

theorem eval_cases_witness :
    (iscomplete INIT INIT = true →
      eval Minimax.strategy INIT INIT = Minimax.strategy.score (canonicalize INIT)) ∧
    (iscomplete INIT INIT = false → nomoves INIT INIT = false →
      eval Minimax.strategy INIT INIT = childFold Minimax.strategy INIT INIT) ∧
    (iscomplete INIT INIT = false → nomoves INIT INIT = true →
      eval Minimax.strategy INIT INIT =
        Minimax.strategy.setboard (eval Minimax.strategy (pass INIT) (pass INIT))
          (canonicalize INIT)) :=
  eval_cases Minimax.strategy Reach.init

/-- C2: `canonicalize b` is a member of the eight-element symmetry orbit
of `b`, is least there, the orbit is closed under `transpose` and
`flipv`, and `canonicalize` is constant on the orbit. -/
theorem canonicalize_minimal (b : Nat) (hb : b < 2 ^ 56) :
    canonicalize b ∈ orbitList b ∧
    (∀ x ∈ orbitList b, canonicalize b ≤ x) ∧
    (∀ x ∈ orbitList b, transpose x ∈ orbitList b ∧ flipv x ∈ orbitList b) ∧
    (∀ x ∈ orbitList b, canonicalize x = canonicalize b) := by
  refine ⟨?_, ?_, orbit_closure hb, canonicalize_orbit hb⟩
  · rw [canonicalize_eq_foldl]
    rcases foldl_min_mem (orbitList b) b with h | h
    · rw [h]
      exact mem_orbit_self b
    · exact h
  · intro x hx
    rw [canonicalize_eq_foldl]
    exact foldl_min_le_mem (orbitList b) b x hx

theorem canonicalize_minimal_witness :
    (1 <<< 50 : Nat) < 2 ^ 56 ∧
    (canonicalize (1 <<< 50) ∈ orbitList (1 <<< 50) ∧
     (∀ x ∈ orbitList (1 <<< 50), canonicalize (1 <<< 50) ≤ x) ∧
     (∀ x ∈ orbitList (1 <<< 50),
       transpose x ∈ orbitList (1 <<< 50) ∧ flipv x ∈ orbitList (1 <<< 50)) ∧
     (∀ x ∈ orbitList (1 <<< 50), canonicalize x = canonicalize (1 <<< 50))) :=
  ⟨by decide, canonicalize_minimal (1 <<< 50) (by decide)⟩

/-- C3: as stated the claim fails.  Passing is allowed by the stated
condition whenever `nomoves` holds, which keeps holding after the game
completes; 16374 such passes wrap the 14-bit turn field, and `derive`
then reconstructs a different mask. -/
theorem derive_mismatch_cex :
    ReachP 0xca84051010a82 0xfffffffffffff ∧
    derive 0xca84051010a82 ≠ 0xfffffffffffff := by
  constructor
  · have h := reachP_passN 16374 reachP_game12 (by decide)
    have hb : passN 16374 0x34a84051010a82 = 0xca84051010a82 := by
      rw [show (16374 : Nat) = 16373 + 1 from rfl, passN_closed]
      decide
    have hm : passN 16374 0x37ffffffffffff = 0xfffffffffffff := by
      rw [show (16374 : Nat) = 16373 + 1 from rfl, passN_closed]
      decide
    rw [hb, hm] at h
    exact h
  · decide

/-- C3 (amended): for every position reached from INIT by legal play,
where passes additionally require the game to be incomplete, `derive`
reconstructs exactly the lockstep mask. -/
theorem derive_correct {b m : Nat} (h : Reach b m) : derive b = m :=
  derive_reach h

theorem derive_correct_witness : derive 0x34a84051010a82 = 0x37ffffffffffff :=
  derive_correct reach_game12

/-- C4: a reachable complete position admits no valid cell for the
mover. -/
theorem complete_no_valid {b m : Nat} (h : Reach b m)
    (hc : iscomplete b m = true) : ¬ ∃ i, i < 25 ∧ valid m i = true := by
  rintro ⟨i, hi, hv⟩
  rw [valid_false_of_complete h hc i hi] at hv
  exact Bool.noConfusion hv

theorem complete_no_valid_witness :
    iscomplete 0x34a84051010a82 0x37ffffffffffff = true ∧
    ¬ ∃ i, i < 25 ∧ valid 0x37ffffffffffff i = true :=
  ⟨by decide, complete_no_valid reach_game12 (by decide)⟩

/-- C5: minimax `combine` returns one of its two arguments; with a common
board label it returns a slot of maximal score when the 1-indexed turn of
the label is odd (player A moves) and of minimal score when it is even;
and `compare` is positive exactly when the second slot is strictly
preferable for that mover. -/
theorem minimax_combine_compare (s0 s1 : Nat)
    (hlabel : Minimax.getboard s0 = Minimax.getboard s1) :
    (Minimax.combine s0 s1 = s0 ∨ Minimax.combine s0 s1 = s1) ∧
    ((Minimax.getboard s0 >>> 50) % 2 = 1 →
      Minimax.getscore (Minimax.combine s0 s1) =
        max (Minimax.getscore s0) (Minimax.getscore s1)) ∧
    ((Minimax.getboard s0 >>> 50) % 2 = 0 →
      Minimax.getscore (Minimax.combine s0 s1) =
        min (Minimax.getscore s0) (Minimax.getscore s1)) ∧
    (0 < Minimax.compare s0 s1 ↔
      (if (Minimax.getboard s0 >>> 50) % 2 = 1
       then Minimax.getscore s0 < Minimax.getscore s1
       else Minimax.getscore s1 < Minimax.getscore s0)) := by
  have hpar : (turn (Minimax.getboard s0) % 2 ≠ 0) ↔
      (Minimax.getboard s0 >>> 50) % 2 = 0 := by
    simp only [turn]
    omega
  refine ⟨?_, ?_, ?_, ?_⟩
  · simp only [Minimax.combine]
    split_ifs <;> simp
  · intro h1
    simp only [Minimax.combine]
    rw [if_neg (fun hc => by omega : ¬ turn (Minimax.getboard s0) % 2 ≠ 0)]
    split_ifs with hgt
    · exact (max_eq_left (by omega)).symm
    · exact (max_eq_right (by omega)).symm
  · intro h0
    simp only [Minimax.combine]
    rw [if_pos (hpar.mpr h0)]
    split_ifs with hlt
    · exact (min_eq_left (by omega)).symm
    · exact (min_eq_right (by omega)).symm
  · simp only [Minimax.compare]
    by_cases hp : (Minimax.getboard s0 >>> 50) % 2 = 1
    · rw [if_neg (fun hc => by omega : ¬ turn (Minimax.getboard s0) % 2 ≠ 0),
        if_pos hp]
      omega
    · rw [if_pos (hpar.mpr (by omega)), if_neg hp]
      omega

theorem minimax_combine_compare_witness :
    Minimax.getboard (Minimax.score INIT) = Minimax.getboard (Minimax.init INIT) ∧
    ((Minimax.combine (Minimax.score INIT) (Minimax.init INIT) = Minimax.score INIT ∨
      Minimax.combine (Minimax.score INIT) (Minimax.init INIT) = Minimax.init INIT) ∧
     ((Minimax.getboard (Minimax.score INIT) >>> 50) % 2 = 1 →
       Minimax.getscore (Minimax.combine (Minimax.score INIT) (Minimax.init INIT)) =
         max (Minimax.getscore (Minimax.score INIT))
           (Minimax.getscore (Minimax.init INIT))) ∧
     ((Minimax.getboard (Minimax.score INIT) >>> 50) % 2 = 0 →
       Minimax.getscore (Minimax.combine (Minimax.score INIT) (Minimax.init INIT)) =
         min (Minimax.getscore (Minimax.score INIT))
           (Minimax.getscore (Minimax.init INIT))) ∧
     (0 < Minimax.compare (Minimax.score INIT) (Minimax.init INIT) ↔
       (if (Minimax.getboard (Minimax.score INIT) >>> 50) % 2 = 1
        then Minimax.getscore (Minimax.score INIT) <
          Minimax.getscore (Minimax.init INIT)
        else Minimax.getscore (Minimax.init INIT) <
          Minimax.getscore (Minimax.score INIT)))) :=
  ⟨by decide, minimax_combine_compare (Minimax.score INIT) (Minimax.init INIT)
    (by decide)⟩

/-- C6: as stated the claim fails.  Unconditional lockstep passes wrap
the 14-bit turn field back to 1, where `valid` applies the first-turn
rule and admits an occupied cell, breaking plane disjointness. -/
theorem overlap_cex :
    ReachU 0x8000008000005 0x800015e00008f ∧
    Nat.testBit 0x8000008000005 2 = true ∧
    Nat.testBit 0x8000008000005 (25 + 2) = true := by
  refine ⟨?_, by decide, by decide⟩
  have h := reachU_play [some 0, some 2] ReachU.init (by decide)
  have hb : playB INIT [some 0, some 2] = 0xc000008000001 := by decide
  have hm : playM INIT [some 0, some 2] = 0xc00004e00008f := by decide
  rw [hb, hm] at h
  have h2 := reachU_passN 16382 h
  have hb2 : passN 16382 0xc000008000001 = 0x4000008000001 := by
    rw [show (16382 : Nat) = 16381 + 1 from rfl, passN_closed]
    decide
  have hm2 : passN 16382 0xc00004e00008f = 0x400004e00008f := by
    rw [show (16382 : Nat) = 16381 + 1 from rfl, passN_closed]
    decide
  rw [hb2, hm2] at h2
  have h3 := ReachU.move 2 h2 (by decide) (by decide)
  have hb3 : place 0x4000008000001 2 = 0x8000008000005 := by decide
  have hm3 : mask 0x400004e00008f 2 = 0x800015e00008f := by decide
  rw [hb3, hm3] at h3
  exact h3

/-- C6 (amended): every pair reachable by legal play, where passes require
the mover to be blocked and the game incomplete, has disjoint occupancy
planes, every occupied cell forbidden in both mask planes, and equal turn
fields. -/
theorem legal_play_invariants {b m : Nat} (h : Reach b m) :
    (∀ c, c < 25 → ¬(b.testBit c = true ∧ b.testBit (25 + c) = true)) ∧
    (∀ c, c < 25 → b.testBit c = true ∨ b.testBit (25 + c) = true →
      m.testBit c = true ∧ m.testBit (25 + c) = true) ∧
    b >>> 50 = m >>> 50 := by
  have inv := inv_of_reach h
  exact ⟨inv.disj, inv.occ, inv.turn_eq⟩

theorem legal_play_invariants_witness :
    (∀ c, c < 25 →
      ¬(Nat.testBit 0x34a84051010a82 c = true ∧
        Nat.testBit 0x34a84051010a82 (25 + c) = true)) ∧
    (∀ c, c < 25 →
      Nat.testBit 0x34a84051010a82 c = true ∨
        Nat.testBit 0x34a84051010a82 (25 + c) = true →
      Nat.testBit 0x37ffffffffffff c = true ∧
        Nat.testBit 0x37ffffffffffff (25 + c) = true) ∧
    0x34a84051010a82 >>> 50 = 0x37ffffffffffff >>> 50 :=
  legal_play_invariants reach_game12

/-- C7: for slots relabeled to a common board by `setboard`, the minimax
combine-fold is invariant under permutation of the siblings; the tally
combine-fold is invariant under permutation unconditionally. -/
theorem combine_fold_perm (b : Nat) (hb : b < 2 ^ 56) :
    (∀ (s0 : Nat) (l1 l2 : List Nat), l1.Perm l2 →
      List.foldl Minimax.combine (Minimax.setboard s0 b)
        (l1.map (fun s => Minimax.setboard s b)) =
      List.foldl Minimax.combine (Minimax.setboard s0 b)
        (l2.map (fun s => Minimax.setboard s b))) ∧
    (∀ (t0 : Tally.Slot) (t1 t2 : List Tally.Slot), t1.Perm t2 →
      List.foldl Tally.combine t0 t1 = List.foldl Tally.combine t0 t2) := by
  constructor
  · intro s0 l1 l2 hp
    have hmap : ∀ l : List Nat, l.map (fun s => Minimax.setboard s b)
        = (l.map (fun s => s >>> 56 &&& 0x3f)).map (mkS b) := by
      intro l
      rw [List.map_map]
      apply List.map_congr_left
      intro s _
      exact setboard_mkS s b
    rw [setboard_mkS s0 b, hmap l1, hmap l2]
    exact minimax_fold_perm hb (hp.map _) _
  · intro t0 t1 t2 hp
    exact tally_fold_perm hp t0

theorem combine_fold_perm_witness :
    (1 <<< 50 : Nat) < 2 ^ 56 ∧
    ((∀ (s0 : Nat) (l1 l2 : List Nat), l1.Perm l2 →
      List.foldl Minimax.combine (Minimax.setboard s0 (1 <<< 50))
        (l1.map (fun s => Minimax.setboard s (1 <<< 50))) =
      List.foldl Minimax.combine (Minimax.setboard s0 (1 <<< 50))
        (l2.map (fun s => Minimax.setboard s (1 <<< 50)))) ∧
     (∀ (t0 : Tally.Slot) (t1 t2 : List Tally.Slot), t1.Perm t2 →
      List.foldl Tally.combine t0 t1 = List.foldl Tally.combine t0 t2)) :=
  ⟨by decide, combine_fold_perm (1 <<< 50) (by decide)⟩

/-- C8: on every reachable pair the recursion of `eval` and `suggest` is
well-founded: finite fuel makes the fuel-indexed versions succeed and
agree with the recursive definitions. -/
theorem eval_suggest_terminate {σ : Type} (S : Strategy σ) {b m : Nat}
    (h : Reach b m) :
    ∃ fuel, evalF S fuel b m = some (eval S b m) ∧
      suggestF S fuel b m = some (suggest S b m) :=
  ⟨evalMeasure b m + 1,
   evalF_sufficient S (evalMeasure b m + 1) b m (by omega),
   suggestF_sufficient S (evalMeasure b m + 1) b m (by omega)⟩

theorem eval_suggest_terminate_witness :
    ∃ fuel, evalF Minimax.strategy fuel INIT INIT =
        some (eval Minimax.strategy INIT INIT) ∧
      suggestF Minimax.strategy fuel INIT INIT =
        some (suggest Minimax.strategy INIT INIT) :=
  eval_suggest_terminate Minimax.strategy Reach.init

/-- C9: as stated the claim fails.  A slot with a bit above the 6-bit
score field changes its reported score under relabeling: `setboard`
clears bits 62 and 63. -/
theorem setboard_score_cex :
    Minimax.getscore (Minimax.setboard (2 ^ 62) (1 <<< 50)) ≠
      Minimax.getscore (2 ^ 62) := by decide

/-- C9 (amended): for every slot whose encoding fits the score field and
board (as every slot the program constructs does) relabeling only changes
the board: `getboard` returns the new board and the minimax score is
preserved; the tally variant preserves all three counts for every slot. -/
theorem setboard_frame (s b : Nat) (hs : s >>> 56 < 64) (hb : b < 2 ^ 56) :
    (Minimax.getboard (Minimax.setboard s b) = b ∧
     Minimax.getscore (Minimax.setboard s b) = Minimax.getscore s) ∧
    (∀ (t : Tally.Slot) (b2 : Nat),
      Tally.getboard (Tally.setboard t b2) = b2 ∧
      (Tally.setboard t b2).p1_wins = t.p1_wins ∧
      (Tally.setboard t b2).p2_wins = t.p2_wins ∧
      (Tally.setboard t b2).ties = t.ties) := by
  constructor
  · constructor
    · rw [setboard_mkS, getboard_mkS hb]
    · rw [setboard_mkS, getscore_mkS hb, and_c6_of_lt hs, Minimax.getscore]
  · intro t b2
    exact ⟨rfl, rfl, rfl, rfl⟩

theorem setboard_frame_witness :
    (2 ^ 61 : Nat) >>> 56 < 64 ∧
    ((Minimax.getboard (Minimax.setboard (2 ^ 61) (1 <<< 50)) = 1 <<< 50 ∧
      Minimax.getscore (Minimax.setboard (2 ^ 61) (1 <<< 50)) =
        Minimax.getscore (2 ^ 61)) ∧
     (∀ (t : Tally.Slot) (b2 : Nat),
       Tally.getboard (Tally.setboard t b2) = b2 ∧
       (Tally.setboard t b2).p1_wins = t.p1_wins ∧
       (Tally.setboard t b2).p2_wins = t.p2_wins ∧
       (Tally.setboard t b2).ties = t.ties)) :=
  ⟨by decide, setboard_frame (2 ^ 61) (1 <<< 50) (by decide) (by decide)⟩

/-- C10: the initial slot is a left identity for `combine`: in the
minimax variant it loses against every slot whose score lies in the
attainable range, and in the tally variant it contributes zero to every
count while keeping its board. -/
theorem init_left_identity (b : Nat) (hb : b < 2 ^ 56) :
    (∀ s : Nat, -25 ≤ Minimax.getscore s → Minimax.getscore s ≤ 25 →
      Minimax.combine (Minimax.init b) s = s) ∧
    (∀ t : Tally.Slot, Tally.combine (Tally.init b) t =
      ⟨b, t.p1_wins, t.p2_wins, t.ties⟩) := by
  constructor
  · intro s hlo hhi
    have hinit : Minimax.init b = mkS b (if turn b % 2 ≠ 0 then 50 else 0) := by
      simp only [Minimax.init, mkS]
      by_cases hc : turn b % 2 ≠ 0
      · rw [if_pos hc, if_pos hc]
        rfl
      · rw [if_neg hc, if_neg hc]
        rfl
    rw [hinit]
    simp only [Minimax.combine, getboard_mkS hb, getscore_mkS hb]
    by_cases hc : turn b % 2 ≠ 0
    · rw [if_pos hc, if_pos hc]
      rw [if_neg (by omega : ¬ ((50 : Nat) : Int) - 25 < Minimax.getscore s)]
    · rw [if_neg hc, if_neg hc]
      rw [if_neg (by omega : ¬ ((0 : Nat) : Int) - 25 > Minimax.getscore s)]
  · intro t
    simp only [Tally.combine, Tally.init, Tally.Slot.mk.injEq]
    refine ⟨trivial, ?_, ?_, ?_⟩ <;> omega

theorem init_left_identity_witness :
    (1 <<< 50 : Nat) < 2 ^ 56 ∧
    ((∀ s : Nat, -25 ≤ Minimax.getscore s → Minimax.getscore s ≤ 25 →
      Minimax.combine (Minimax.init (1 <<< 50)) s = s) ∧
     (∀ t : Tally.Slot, Tally.combine (Tally.init (1 <<< 50)) t =
       ⟨1 <<< 50, t.p1_wins, t.p2_wins, t.ties⟩)) :=
  ⟨by decide, init_left_identity (1 <<< 50) (by decide)⟩

end BSquare
